import Mathlib

/-!
# Verification of the hospital-dataset cleaning pipeline

Shallow embedding of the two scripts
`src/data_cleaning/clean_hospital_data.py` and
`src/data_cleaning/ml_missing_value_imputation.py`.

Strings are modelled as lists of (ASCII) character codes (`Str := List Nat`),
absent cells as `Option`, pandas float columns as `ℚ` (the properties proved
do not depend on floating-point rounding), and dates as `Int` day numbers
(days since the Unix epoch, as produced by `pd.to_datetime` subtraction).
-/

namespace Hosp

/-- Character-code strings: every text value in the embedding is a list of
Unicode code points (the data at hand is ASCII). -/
abbrev Str := List Nat

/-- Convert a Lean string literal to its code list (used to state concrete
scenarios against the embedding). -/
def encode (s : String) : Str := s.data.map Char.toNat

/-- ASCII lowercasing of one code point, as Python `str.lower` acts on ASCII. -/
def lowC (c : Nat) : Nat := if 65 ≤ c ∧ c ≤ 90 then c + 32 else c

/-- ASCII uppercasing of one code point, as Python `str.upper` acts on ASCII. -/
def upC (c : Nat) : Nat := if 97 ≤ c ∧ c ≤ 122 then c - 32 else c

/-- Python `\s` whitespace class (ASCII part): space, tab, LF, VT, FF, CR. -/
def isSpaceC (c : Nat) : Bool := c = 32 ∨ c = 9 ∨ c = 10 ∨ c = 11 ∨ c = 12 ∨ c = 13

/-- ASCII letter. -/
def isAlphaC (c : Nat) : Bool := (65 ≤ c ∧ c ≤ 90) ∨ (97 ≤ c ∧ c ≤ 122)

/-- Python regex `\w` word character (ASCII part): letter, digit or underscore. -/
def isWordC (c : Nat) : Bool := isAlphaC c ∨ (48 ≤ c ∧ c ≤ 57) ∨ c = 95

/-- Lowercase a whole string (Python `str.lower`). -/
def lowS (s : Str) : Str := s.map lowC

theorem lowC_lowC (c : Nat) : lowC (lowC c) = lowC c := by
  simp only [lowC]; split_ifs <;> omega

theorem lowC_upC (c : Nat) : lowC (upC c) = lowC c := by
  simp only [lowC, upC]; split_ifs <;> omega

theorem upC_upC (c : Nat) : upC (upC c) = upC c := by
  simp only [upC]; split_ifs <;> omega

theorem upC_lowC (c : Nat) : upC (lowC c) = upC c := by
  simp only [upC, lowC]; split_ifs <;> omega

theorem isAlphaC_lowC (c : Nat) : isAlphaC (lowC c) = isAlphaC c := by
  simp only [isAlphaC, lowC]; split_ifs <;> simp only [decide_eq_decide] <;> omega

theorem isAlphaC_upC (c : Nat) : isAlphaC (upC c) = isAlphaC c := by
  simp only [isAlphaC, upC]; split_ifs <;> simp only [decide_eq_decide] <;> omega

theorem isWordC_lowC (c : Nat) : isWordC (lowC c) = isWordC c := by
  simp only [isWordC, isAlphaC, lowC, decide_eq_true_eq]
  split_ifs <;> simp only [decide_eq_decide] <;> omega

theorem isSpaceC_lowC (c : Nat) : isSpaceC (lowC c) = isSpaceC c := by
  simp only [isSpaceC, lowC]; split_ifs <;> simp only [decide_eq_decide] <;> omega

theorem isSpaceC_upC (c : Nat) : isSpaceC (upC c) = isSpaceC c := by
  simp only [isSpaceC, upC]; split_ifs <;> simp only [decide_eq_decide] <;> omega

theorem length_dropWhile_le (p : Nat → Bool) (l : Str) :
    (l.dropWhile p).length ≤ l.length := by
  induction l with
  | nil => simp [List.dropWhile]
  | cons c rest ih =>
    simp only [List.dropWhile]
    cases p c <;> simp <;> omega

theorem lowS_lowS (s : Str) : lowS (lowS s) = lowS s := by
  unfold lowS; rw [List.map_map]; apply List.map_congr_left
  intro c _; exact lowC_lowC c

/-- Split on whitespace dropping empty pieces — the behaviour of Python
`str.split()` with no argument.  `cur` accumulates the word being read. -/
def splitWsAcc (cur : Str) : Str → List Str
  | [] => if cur = [] then [] else [cur]
  | c :: rest =>
    if isSpaceC c then
      (if cur = [] then splitWsAcc [] rest else cur :: splitWsAcc [] rest)
    else splitWsAcc (cur ++ [c]) rest

def splitWs (s : Str) : List Str := splitWsAcc [] s

/-- Python `part.split('-')`: split on the hyphen, keeping empty pieces;
always returns at least one piece. -/
def splitDash : Str → List Str
  | [] => [[]]
  | c :: rest =>
    if c = 45 then [] :: splitDash rest
    else
      match splitDash rest with
      | s :: ss => (c :: s) :: ss
      | [] => [[c]]

/-- Python `str.capitalize()`: first character uppercased, all following
characters lowercased. -/
def capitalize : Str → Str
  | [] => []
  | c :: rest => upC c :: rest.map lowC

/-- Python `str.title()`: a cased character is uppercased when the previous
character is not a letter and lowercased otherwise.  The boolean argument
records whether the previous character was a letter. -/
def titleAux : Bool → Str → Str
  | _, [] => []
  | prev, c :: rest =>
    (if isAlphaC c then (if prev then lowC c else upC c) else c) ::
      titleAux (isAlphaC c) rest

def titleS (s : Str) : Str := titleAux false s

/-- Python `str.strip()`: drop leading and trailing whitespace. -/
def stripS (s : Str) : Str :=
  ((s.dropWhile (fun c => isSpaceC c)).reverse.dropWhile
    (fun c => isSpaceC c)).reverse

/-- Python `str.rstrip(',')`: drop trailing commas. -/
def rstripComma (s : Str) : Str :=
  (s.reverse.dropWhile (fun c => c = 44)).reverse

/-!
## `clean_hospital_data.py`, value-level transforms
-/

/-- `' '.join(parts)`. -/
def joinSp : List Str → Str
  | [] => []
  | [w] => w
  | w :: rest => w ++ 32 :: joinSp rest

/-- `'-'.join(parts)`. -/
def joinDash : List Str → Str
  | [] => []
  | [w] => w
  | w :: rest => w ++ 45 :: joinDash rest

/-- `re.sub(r's+', ' ', str(name).strip())` of `fix_name_formatting`:
strip the ends and collapse every internal whitespace run to a single
space; equivalently, join the whitespace-separated words with one space. -/
def normSpace (s : Str) : Str := joinSp (splitWs s)

/-- The honorific prefixes of `fix_name_formatting`'s `title_pattern`
`(mr.|mrs.|dr.|ms.)`, tried in the regex's order. -/
def titlesList : List Str := [encode "mr.", encode "mrs.", encode "dr.", encode "ms."]

/-- One part of a whitespace-split name: hyphenated parts are split on `-`
and each piece `str.capitalize`d, then rejoined with `-`; other parts are
`str.capitalize`d. -/
def fixPart (w : Str) : Str :=
  if 45 ∈ w then joinDash ((splitDash w).map capitalize)
  else capitalize w

/-- The per-part pass of `fix_name_formatting`: split the (already
collapsed) text on whitespace, fix each part, rejoin with single spaces. -/
def fixBody (x : Str) : Str := joinSp ((splitWs x).map fixPart)

/-- `fix_name_formatting` applied to a present name: whitespace
normalisation, honorific detection (case-insensitive, re-title-cased and
re-prepended with one space), then per-part capitalisation. -/
def fixName (s : Str) : Str :=
  match titlesList.find? (fun p => p.isPrefixOf (lowS (normSpace s))) with
  | some p =>
    (titleS p ++ [32]) ++
      fixBody (((normSpace s).drop p.length).dropWhile (fun c => isSpaceC c))
  | none => fixBody (normSpace s)

/-- The regex `^[Nn]a[Nn]$` of `clean_gender_data` (Python `re.match` with
`$`, which also accepts one trailing newline). -/
def isLiteralNan (s : Str) : Bool :=
  match s with
  | [c1, c2, c3] => (c1 = 78 ∨ c1 = 110) ∧ c2 = 97 ∧ (c3 = 78 ∨ c3 = 110)
  | [c1, c2, c3, c4] => (c1 = 78 ∨ c1 = 110) ∧ c2 = 97 ∧ (c3 = 78 ∨ c3 = 110) ∧ c4 = 10
  | _ => False

/-- `valid_genders = ['Male', 'Female']`. -/
def validGenders : List Str := [encode "Male", encode "Female"]

/-- `clean_gender_data` per cell: the literal-"Nan" pre-pass sets matching
strings to null, then any remaining non-null value outside
`valid_genders` is set to null. -/
def cleanGenderVal : Option Str → Option Str
  | none => none
  | some s =>
    if isLiteralNan s then none
    else if s ∈ validGenders then some s else none

/-- `valid_blood_types` of `clean_blood_types`. -/
def validBloodTypes : List Str :=
  [encode "A+", encode "A-", encode "B+", encode "B-",
   encode "AB+", encode "AB-", encode "O+", encode "O-"]

/-- `clean_blood_types` per cell: the mask is `~isin(valid_blood_types)`
with no null exclusion, so null cells are also rewritten to `'Unknown'`. -/
def cleanBloodVal : Option Str → Option Str
  | some s => if s ∈ validBloodTypes then some s else some (encode "Unknown")
  | none => some (encode "Unknown")

/-- One case-insensitive, word-boundary, three-letter replacement
`re.sub(r'bXYZb', 'XYZ', name, flags=re.IGNORECASE)` of
`clean_hospital_name`.  `p1 p2 p3` is the lowercased pattern, `k1 k2 k3`
the literal replacement; the boolean records whether the previous
character was a word character (the left `b` context). -/
def boundaryOk : Str → Bool
  | [] => true
  | d :: _ => !isWordC d

/-- The replacement scanner itself (see `boundaryOk`). -/
def replWord (p1 p2 p3 k1 k2 k3 : Nat) : Bool → Str → Str
  | _, [] => []
  | _, [a] => [a]
  | _, [a, b] => [a, b]
  | prev, a :: b :: c :: rest =>
    if !prev ∧ lowC a = p1 ∧ lowC b = p2 ∧ lowC c = p3 ∧ boundaryOk rest then
      k1 :: k2 :: k3 :: replWord p1 p2 p3 k1 k2 k3 (isWordC k3) rest
    else a :: replWord p1 p2 p3 k1 k2 k3 (isWordC a) (b :: c :: rest)

/-- `clean_hospital_name` applied to a present value: strip, drop trailing
commas, strip again, then the four standardising replacements `LLC`,
`PLC`, `Inc`, `Ltd` in the source's order. -/
def cleanHospitalVal (s : Str) : Str :=
  replWord 108 116 100 76 116 100 false
    (replWord 105 110 99 73 110 99 false
      (replWord 112 108 99 80 76 67 false
        (replWord 108 108 99 76 76 67 false
          (stripS (rstripComma (stripS s))))))

/-- Age rule of `clean_numerical_data`: ages outside `[0, 120]` become null. -/
def cleanAgeVal : Option ℚ → Option ℚ
  | none => none
  | some a => if a < 0 ∨ a > 120 then none else some a

/-- Billing rule of `clean_numerical_data`: negative amounts are replaced by
their absolute value, then amounts above `1000000` are capped at
`1000000` and amounts below `1` become null. -/
def cleanBillingVal : Option ℚ → Option ℚ
  | none => none
  | some x =>
    let y := if x < 0 then -x else x
    if y > 1000000 then some 1000000
    else if y < 1 then none else some y

/-- Room-number rule of `clean_numerical_data`: rooms outside `[1, 9999]`
become null. -/
def cleanRoomVal : Option ℚ → Option ℚ
  | none => none
  | some r => if r < 1 ∨ r > 9999 then none else some r

/-- `clean_insurance_name` / `clean_medication_name` of
`clean_categorical_data`: `str(name).strip().title()`. -/
def stripTitleVal (s : Str) : Str := titleS (stripS s)

/-!
## `clean_hospital_data.py`, table level

A row of the hospital table.  The cleaning script assumes every column of
the fixed schema is present (a missing column would surface as an uncaught
pandas `KeyError`); a cell is `none` when the value is absent (pandas
`NaN`/`NaT`).  Dates are day numbers, numeric columns are rationals.
-/

structure Row where
  name : Option Str
  age : Option ℚ
  gender : Option Str
  bloodType : Option Str
  medicalCondition : Option Str
  dateOfAdmission : Option Int
  doctor : Option Str
  hospital : Option Str
  insuranceProvider : Option Str
  billingAmount : Option ℚ
  roomNumber : Option ℚ
  admissionType : Option Str
  dischargeDate : Option Int
  medication : Option Str
  testResults : Option Str
deriving DecidableEq, Repr

/-- `drop_duplicates` (`remove_duplicates`): keep the first occurrence of
every row. -/
def dropDupAcc (seen : List Row) : List Row → List Row
  | [] => []
  | r :: rest =>
    if r ∈ seen then dropDupAcc seen rest
    else r :: dropDupAcc (r :: seen) rest

def dropDuplicates (t : List Row) : List Row := dropDupAcc [] t

/-- `clean_names`: apply `fix_name_formatting` to every present name. -/
def cleanNames (t : List Row) : List Row :=
  t.map fun r => { r with name := r.name.map fixName }

/-- `clean_gender_data` over the table. -/
def cleanGender (t : List Row) : List Row :=
  t.map fun r => { r with gender := cleanGenderVal r.gender }

/-- `clean_blood_types` over the table. -/
def cleanBlood (t : List Row) : List Row :=
  t.map fun r => { r with bloodType := cleanBloodVal r.bloodType }

/-- `clean_dates`: the `pd.to_datetime` parse is the identity on the
already-parsed representation; then a discharge date strictly before the
admission date is set to `NaT` (the `null_out_end` policy). -/
def cleanDatesRow (r : Row) : Row :=
  match r.dateOfAdmission, r.dischargeDate with
  | some a, some d => if d < a then { r with dischargeDate := none } else r
  | _, _ => r

def cleanDates (t : List Row) : List Row := t.map cleanDatesRow

/-- `clean_hospital_names` over the table. -/
def cleanHospital (t : List Row) : List Row :=
  t.map fun r => { r with hospital := r.hospital.map cleanHospitalVal }

/-- `clean_numerical_data` over the table (age, billing amount, room number). -/
def cleanNumericalRow (r : Row) : Row :=
  { r with
    age := cleanAgeVal r.age
    billingAmount := cleanBillingVal r.billingAmount
    roomNumber := cleanRoomVal r.roomNumber }

def cleanNumerical (t : List Row) : List Row := t.map cleanNumericalRow

/-- `clean_categorical_data` over the table: insurance provider and
medication are `strip().title()`-normalised; the other categorical columns
are only printed. -/
def cleanCategoricalRow (r : Row) : Row :=
  { r with
    insuranceProvider := r.insuranceProvider.map stripTitleVal
    medication := r.medication.map stripTitleVal }

def cleanCategorical (t : List Row) : List Row := t.map cleanCategoricalRow

/-- Ordered insertion, for `sortQ`. -/
def insertQ (x : ℚ) : List ℚ → List ℚ
  | [] => [x]
  | y :: rest => if x ≤ y then x :: y :: rest else y :: insertQ x rest

/-- Insertion sort of a list of rationals (used by the pandas `median` and
`quantile`, which read off the sorted values). -/
def sortQ : List ℚ → List ℚ
  | [] => []
  | x :: rest => insertQ x (sortQ rest)

/-- pandas `Series.median` over the present values: `none` on an empty
list, the middle element of the sorted list for odd length, the average of
the two middle elements for even length. -/
def medianQ (l : List ℚ) : Option ℚ :=
  match l with
  | [] => none
  | _ =>
    if (sortQ l).length % 2 = 1 then (sortQ l).get? ((sortQ l).length / 2)
    else
      match (sortQ l).get? ((sortQ l).length / 2 - 1),
          (sortQ l).get? ((sortQ l).length / 2) with
      | some a, some b => some ((a + b) / 2)
      | _, _ => none

/-- The present ages of the table. -/
def presentAges (t : List Row) : List ℚ := t.filterMap (fun r => r.age)

/-- `handle_missing_values`: of all its branches only the `Age` one
mutates the table — missing ages are filled with the median of the present
ages (a no-op when every age is missing, since the pandas median is then
`NaN`).  The other branches print recommendations and keep the values. -/
def handleMissing (t : List Row) : List Row :=
  if t.any (fun r => r.age = none) then
    match medianQ (presentAges t) with
    | some m => t.map fun r => { r with age := some (r.age.getD m) }
    | none => t
  else t

/-- `run_full_cleaning` minus loading, outlier *reporting* (read-only) and
saving: the mutating steps in the source's order. -/
def cleanPipeline (t : List Row) : List Row :=
  handleMissing (cleanCategorical (cleanNumerical (cleanHospital
    (cleanDates (cleanBlood (cleanGender (cleanNames (dropDuplicates t))))))))

/-!
## `ml_missing_value_imputation.py`

This script is column-generic (every rule guards on column presence), so
its table is modelled as an association list from column names to typed
cell columns.  `object` columns hold strings, `float64`/`int64` columns
rationals, `datetime64[ns]` columns day numbers.
-/

inductive ColData where
  | str : List (Option Str) → ColData
  | num : List (Option ℚ) → ColData
  | date : List (Option Int) → ColData
deriving DecidableEq, Repr

abbrev MLTable := List (Str × ColData)

def colLen : ColData → Nat
  | .str cells => cells.length
  | .num cells => cells.length
  | .date cells => cells.length

/-- `df[col].isnull().sum()` for one column. -/
def colMissing : ColData → Nat
  | .str cells => cells.countP (fun o => o = none)
  | .num cells => cells.countP (fun o => o = none)
  | .date cells => cells.countP (fun o => o = none)

def isObjCol : ColData → Bool
  | .str _ => true
  | _ => false

def isNumCol : ColData → Bool
  | .num _ => true
  | _ => false

def isDateCol : ColData → Bool
  | .date _ => true
  | _ => false

def colNames (t : MLTable) : List Str := t.map (fun p => p.1)

def lookupCol (t : MLTable) (nm : Str) : Option ColData :=
  (t.find? (fun p => p.1 = nm)).map (fun p => p.2)

/-- `df[col] = ...` on an existing column: replace its data. -/
def setCol (t : MLTable) (nm : Str) (c : ColData) : MLTable :=
  t.map (fun p => if p.1 = nm then (nm, c) else p)

/-- `df[col] = ...` in general: replace the column if present, otherwise
append it at the end (how pandas adds a derived column). -/
def putCol (t : MLTable) (nm : Str) (c : ColData) : MLTable :=
  if (lookupCol t nm).isSome then setCol t nm c else t ++ [(nm, c)]

/-- `len(self.df)`: the row count (the length of the first column). -/
def nrows : MLTable → Nat
  | [] => 0
  | (_, c) :: _ => colLen c

def nmName : Str := encode "Name"
def nmGender : Str := encode "Gender"
def nmAdm : Str := encode "Date of Admission"
def nmDis : Str := encode "Discharge Date"
def nmInsurance : Str := encode "Insurance Provider"
def nmMedication : Str := encode "Medication"
def nmAdmType : Str := encode "Admission Type"
def nmAge : Str := encode "Age"
def nmBilling : Str := encode "Billing Amount"
def nmLOS : Str := encode "Length_of_Stay"
def nmAgeGroup : Str := encode "Age_Group"
def nmBillingCat : Str := encode "Billing_Category"

/-- Python `sub in s` substring test. -/
def containsSub (pat : Str) : Str → Bool
  | [] => pat.isPrefixOf ([] : Str)
  | c :: rest => pat.isPrefixOf (c :: rest) || containsSub pat rest

/-- `self.pii_columns = ['Name']`. -/
def piiCols : List Str := [nmName]

/-- The five strategy buckets of `analyze_missing_patterns`. -/
structure Buckets where
  catLow : List Str
  catHigh : List Str
  numeric : List Str
  dates : List Str
  keepMissing : List Str
deriving DecidableEq, Repr

/-- One iteration of `analyze_missing_patterns`'s classification loop:
skip fully-present and PII columns; date-like name or datetime dtype →
directional fill; object dtype below/at-or-above 5% missing → mode /
domain-sentinel fill; numeric dtype → statistic fill; anything else is
kept missing. -/
def classifyCol (n : Nat) (b : Buckets) (nm : Str) (c : ColData) : Buckets :=
  if colMissing c = 0 then b
  else if nm ∈ piiCols then b
  else if containsSub (encode "date") (lowS nm) ∨ isDateCol c then
    { b with dates := b.dates ++ [nm] }
  else if isObjCol c ∧ ((colMissing c : ℚ) / (n : ℚ) * 100 < 5) then
    { b with catLow := b.catLow ++ [nm] }
  else if isObjCol c then
    { b with catHigh := b.catHigh ++ [nm] }
  else if isNumCol c then
    { b with numeric := b.numeric ++ [nm] }
  else { b with keepMissing := b.keepMissing ++ [nm] }

def analyze (t : MLTable) : Buckets :=
  t.foldl (fun b p => classifyCol (nrows t) b p.1 p.2) ⟨[], [], [], [], []⟩

/-- `drop_pii_columns`: drop the PII columns that are present. -/
def dropPII (t : MLTable) : MLTable :=
  t.filter (fun p => !(p.1 ∈ piiCols : Bool))

/-- Lexicographic comparison of code strings (pandas sorts the tied mode
candidates and `mode()[0]` takes the least). -/
def lexLtN : Str → Str → Bool
  | [], [] => false
  | [], _ :: _ => true
  | _ :: _, [] => false
  | a :: s, b :: t => if a < b then true else if b < a then false else lexLtN s t

/-- `series.mode()[0]`: the most frequent value, ties broken towards the
lexicographically least; `none` when there are no present values. -/
def modeStr (l : List Str) : Option Str :=
  l.foldl (fun best v =>
    match best with
    | none => some v
    | some b =>
      if l.count v > l.count b then some v
      else if l.count v = l.count b ∧ lexLtN v b then some v
      else some b) none

/-- `series.fillna(v)` on string cells. -/
def fillCellsStr (v : Str) (cells : List (Option Str)) : List (Option Str) :=
  cells.map (fun o => some (o.getD v))

def fillCellsQ (v : ℚ) (cells : List (Option ℚ)) : List (Option ℚ) :=
  cells.map (fun o => some (o.getD v))

/-- Count of absent cells in a string column. -/
def countNoneStr (cells : List (Option Str)) : Nat := cells.countP (fun o => o = none)

def countNoneQ (cells : List (Option ℚ)) : Nat := cells.countP (fun o => o = none)

def countNoneD (cells : List (Option Int)) : Nat := cells.countP (fun o => o = none)

/-- One column of `impute_categorical_low_missing`: a column absent from
the table is skipped silently, as is a column with no missing values or
with no present value to take a mode from; otherwise every absent cell is
filled with the mode. -/
def imputeCatLowStep (t : MLTable) (nm : Str) : MLTable :=
  match lookupCol t nm with
  | some (.str cells) =>
    if countNoneStr cells = 0 then t
    else
      match modeStr (cells.filterMap id) with
      | some m => setCol t nm (.str (fillCellsStr m cells))
      | none => t
  | _ => t

def imputeCatLow (bs : List Str) (t : MLTable) : MLTable :=
  bs.foldl imputeCatLowStep t

/-- One column of `impute_categorical_high_missing`: domain sentinels for
insurance and medication, the mode (or `'Emergency'`) for admission type,
`'Unknown'` otherwise. -/
def imputeCatHighStep (t : MLTable) (nm : Str) : MLTable :=
  match lookupCol t nm with
  | some (.str cells) =>
    if countNoneStr cells = 0 then t
    else
      let v :=
        if nm = nmInsurance then encode "Self-Pay"
        else if nm = nmMedication then encode "No Medication"
        else if nm = nmAdmType then (modeStr (cells.filterMap id)).getD (encode "Emergency")
        else encode "Unknown"
      setCol t nm (.str (fillCellsStr v cells))
  | _ => t

def imputeCatHigh (bs : List Str) (t : MLTable) : MLTable :=
  bs.foldl imputeCatHighStep t

/-- `series.mean()` over the present values. -/
def meanQ (l : List ℚ) : Option ℚ :=
  match l with
  | [] => none
  | _ => some (l.sum / (l.length : ℚ))

/-- One column of `impute_numerical_data`: median for billing/amount
columns, mean otherwise; when the statistic is undefined (no present
values) the `fillna(NaN)` is a no-op. -/
def imputeNumStep (t : MLTable) (nm : Str) : MLTable :=
  match lookupCol t nm with
  | some (.num cells) =>
    if countNoneQ cells = 0 then t
    else
      let stat :=
        if containsSub (encode "billing") (lowS nm) ∨ containsSub (encode "amount") (lowS nm) then
          medianQ (cells.filterMap id)
        else meanQ (cells.filterMap id)
      match stat with
      | some v => setCol t nm (.num (fillCellsQ v cells))
      | none => t
  | _ => t

def imputeNum (bs : List Str) (t : MLTable) : MLTable :=
  bs.foldl imputeNumStep t

/-- `fillna(method='ffill')`: carry the nearest preceding present value. -/
def ffillAux {α : Type} (last : Option α) : List (Option α) → List (Option α)
  | [] => []
  | none :: rest => last :: ffillAux last rest
  | some v :: rest => some v :: ffillAux (some v) rest

def ffill {α : Type} (l : List (Option α)) : List (Option α) := ffillAux none l

/-- `fillna(method='bfill')`: carry the nearest following present value. -/
def bfill {α : Type} (l : List (Option α)) : List (Option α) :=
  (ffillAux none l.reverse).reverse

/-- One column of `impute_date_data`: forward fill then backward fill
(both branches of the source do the same). -/
def imputeDateStep (t : MLTable) (nm : Str) : MLTable :=
  match lookupCol t nm with
  | some (.date cells) =>
    if countNoneD cells = 0 then t
    else setCol t nm (.date (bfill (ffill cells)))
  | _ => t

def imputeDate (bs : List Str) (t : MLTable) : MLTable :=
  bs.foldl imputeDateStep t

/-- `handle_gender_missing`: skipped when the Gender column is absent or
fully present; otherwise mode-filled (nothing happens when the mode is
undefined). -/
def handleGender (t : MLTable) : MLTable :=
  match lookupCol t nmGender with
  | some (.str cells) =>
    if countNoneStr cells = 0 then t
    else
      match modeStr (cells.filterMap id) with
      | some m => setCol t nmGender (.str (fillCellsStr m cells))
      | none => t
  | _ => t

/-- The swap repair of `fix_date_logic_errors` on one (admission,
discharge) pair: pairs with both dates present and discharge before
admission are exchanged. -/
def swapPair : Option Int × Option Int → Option Int × Option Int
  | (some a, some d) => if d < a then (some d, some a) else (some a, some d)
  | p => p

/-- `fix_date_logic_errors`: skipped unless both date columns are present;
otherwise the violating pairs are swapped in place. -/
def fixDateLogic (t : MLTable) : MLTable :=
  match lookupCol t nmAdm, lookupCol t nmDis with
  | some (.date as), some (.date ds) =>
    let pairs := (List.zip as ds).map swapPair
    setCol (setCol t nmAdm (.date (pairs.map Prod.fst))) nmDis
      (.date (pairs.map Prod.snd))
  | _, _ => t

/-- The (admission, discharge) pairs of a table, used by the script's
length-of-stay computations. -/
def losPairs (t : MLTable) : List (Option Int × Option Int) :=
  match lookupCol t nmAdm, lookupCol t nmDis with
  | some (.date as), some (.date ds) => List.zip as ds
  | _, _ => []

/-- The re-verification count of `fix_date_logic_errors`
(`(los_fixed < 0).sum()`): rows whose dates are both present with
discharge still before admission. -/
def negLosCount (t : MLTable) : Nat :=
  (losPairs t).countP
    (fun p => match p with | (some a, some d) => d < a | _ => false)

/-- `(discharge - admission).dt.days` for one row: `none` when either
date is absent. -/
def losVal : Option Int × Option Int → Option ℚ
  | (some a, some d) => some (((d - a : Int) : ℚ))
  | _ => none

/-- The `Length_of_Stay` feature of `generate_ml_ready_features`. -/
def addLos (t : MLTable) : MLTable :=
  match lookupCol t nmAdm, lookupCol t nmDis with
  | some (.date _), some (.date _) =>
    putCol t nmLOS (.num ((losPairs t).map losVal))
  | _, _ => t

/-- `pd.cut(age, bins=[0,18,35,50,65,100], labels=[...])` for one cell:
half-open-on-the-left bins, so age 0, ages above 100 and absent ages get
no bucket. -/
def ageGroupVal : Option ℚ → Option Str
  | none => none
  | some a =>
    if 0 < a ∧ a ≤ 18 then some (encode "Child")
    else if 18 < a ∧ a ≤ 35 then some (encode "Young_Adult")
    else if 35 < a ∧ a ≤ 50 then some (encode "Adult")
    else if 50 < a ∧ a ≤ 65 then some (encode "Middle_Age")
    else if 65 < a ∧ a ≤ 100 then some (encode "Senior")
    else none

/-- The `Age_Group` feature (only meaningful on the numeric age column of
this dataset). -/
def addAgeGroup (t : MLTable) : MLTable :=
  match lookupCol t nmAge with
  | some (.num cells) => putCol t nmAgeGroup (.str (cells.map ageGroupVal))
  | _ => t

/-- pandas `Series.quantile(p)` with the default linear interpolation,
over the present values; `none` when there are none. -/
def quantileQ (l : List ℚ) (p : ℚ) : Option ℚ :=
  match l with
  | [] => none
  | _ =>
    let s := sortQ l
    let pos : ℚ := ((s.length - 1 : ℕ) : ℚ) * p
    let j : ℕ := (Int.toNat ⌊pos⌋)
    let g : ℚ := pos - (j : ℚ)
    match s.get? j with
    | none => none
    | some a =>
      if g = 0 then some a
      else
        match s.get? (j + 1) with
        | some b => some (a + g * (b - a))
        | none => some a

/-- `pd.cut(billing, bins=[0, q25, q50, q75, inf], labels=[...])` for one
cell. -/
def billingCatVal (q1 q2 q3 : ℚ) : Option ℚ → Option Str
  | none => none
  | some x =>
    if 0 < x ∧ x ≤ q1 then some (encode "Low")
    else if q1 < x ∧ x ≤ q2 then some (encode "Medium")
    else if q2 < x ∧ x ≤ q3 then some (encode "High")
    else if q3 < x then some (encode "Very_High")
    else none

/-- The `Billing_Category` feature.  `pd.cut` raises when the bin edges
are not strictly increasing (equal quantiles) or undefined (no present
billing values); that pandas `ValueError` is the only abnormal exit of
the script and is modelled with `Except`. -/
def addBillingCat (t : MLTable) : Except String MLTable :=
  match lookupCol t nmBilling with
  | some (.num cells) =>
    let pres := cells.filterMap id
    match quantileQ pres (1/4), quantileQ pres (1/2), quantileQ pres (3/4) with
    | some q1, some q2, some q3 =>
      if 0 < q1 ∧ q1 < q2 ∧ q2 < q3 then
        .ok (putCol t nmBillingCat (.str (cells.map (billingCatVal q1 q2 q3))))
      else .error "ValueError: bin edges must be unique"
    | _, _, _ => .error "ValueError: bins must not contain NaN"
  | _ => .ok t

/-- `generate_ml_ready_features`: length of stay, age group, billing
category, in order. -/
def genFeatures (t : MLTable) : Except String MLTable :=
  addBillingCat (addAgeGroup (addLos t))

/-- `run_ml_imputation_pipeline` minus loading, report generation and
saving: bucket analysis on the input table, then the imputation stages,
the gender special case, the date-logic repair and the derived features,
in the source's order. -/
def imputeDispatch (t : MLTable) : MLTable :=
  handleGender (imputeDate (analyze t).dates
    (imputeNum (analyze t).numeric (imputeCatHigh (analyze t).catHigh
      (imputeCatLow (analyze t).catLow (dropPII t)))))

def mlPipeline (t : MLTable) : Except String MLTable :=
  genFeatures (fixDateLogic (imputeDispatch t))

/-- Day number of a Gregorian calendar date (days since 1970-01-01),
tying the integer date representation to concrete dates. -/
def daysFromCivil (y m d : Int) : Int :=
  let y2 := if m ≤ 2 then y - 1 else y
  let era := (if 0 ≤ y2 then y2 else y2 - 399) / 400
  let yoe := y2 - era * 400
  let mp := (m + 9) % 12
  let doy := (153 * mp + 2) / 5 + d - 1
  let doe := yoe * 365 + yoe / 4 - yoe / 100 + doy
  era * 146097 + doe - 719468

/-!
## Helper facts
-/

/-- A row with every cell absent (concrete scenarios adjust single fields). -/
def emptyRow : Row :=
  { name := none, age := none, gender := none, bloodType := none,
    medicalCondition := none, dateOfAdmission := none, doctor := none,
    hospital := none, insuranceProvider := none, billingAmount := none,
    roomNumber := none, admissionType := none, dischargeDate := none,
    medication := none, testResults := none }

theorem lookupCol_cons (k : Str) (v : ColData) (rest : MLTable) (nm : Str) :
    lookupCol ((k, v) :: rest) nm = if k = nm then some v else lookupCol rest nm := by
  by_cases h : k = nm <;> simp [lookupCol, List.find?, h]

theorem setCol_cons (k : Str) (v : ColData) (rest : MLTable) (nm : Str) (c : ColData) :
    setCol ((k, v) :: rest) nm c =
      (if k = nm then (nm, c) else (k, v)) :: setCol rest nm c := by
  by_cases h : k = nm <;> simp [setCol, h]

theorem lookupCol_setCol_self (t : MLTable) (nm : Str) (c : ColData)
    (h : (lookupCol t nm).isSome) : lookupCol (setCol t nm c) nm = some c := by
  induction t with
  | nil => simp [lookupCol] at h
  | cons p rest ih =>
    rcases p with ⟨k, v⟩
    rw [setCol_cons]
    by_cases hp : k = nm
    · rw [if_pos hp, lookupCol_cons, if_pos rfl]
    · rw [if_neg hp, lookupCol_cons, if_neg hp]
      rw [lookupCol_cons, if_neg hp] at h
      exact ih h

theorem lookupCol_setCol_other (t : MLTable) (nm nm2 : Str) (c : ColData)
    (h : nm2 ≠ nm) : lookupCol (setCol t nm c) nm2 = lookupCol t nm2 := by
  induction t with
  | nil => simp [lookupCol, setCol]
  | cons p rest ih =>
    rcases p with ⟨k, v⟩
    rw [setCol_cons]
    by_cases hp : k = nm
    · subst hp
      rw [if_pos rfl, lookupCol_cons, if_neg (fun hh => h hh.symm),
        lookupCol_cons, if_neg (fun hh => h hh.symm)]
      exact ih
    · rw [if_neg hp, lookupCol_cons, lookupCol_cons]
      by_cases hq : k = nm2
      · rw [if_pos hq, if_pos hq]
      · rw [if_neg hq, if_neg hq]; exact ih

theorem zip_map_fst_snd_pairs {α β : Type} (l : List (α × β)) :
    List.zip (l.map Prod.fst) (l.map Prod.snd) = l := by
  induction l with
  | nil => rfl
  | cons p rest ih => cases p; simp [List.zip, ih]

/-- When both date columns are present, `fix_date_logic_errors` rewrites
them with the swapped pairs. -/
theorem fixDateLogic_eq (t : MLTable) (as ds : List (Option Int))
    (hA : lookupCol t nmAdm = some (ColData.date as))
    (hD : lookupCol t nmDis = some (ColData.date ds)) :
    fixDateLogic t =
      setCol (setCol t nmAdm
          (ColData.date (((List.zip as ds).map swapPair).map Prod.fst))) nmDis
        (ColData.date (((List.zip as ds).map swapPair).map Prod.snd)) := by
  unfold fixDateLogic
  rw [hA, hD]

/-- The (admission, discharge) pairs after the swap repair are exactly the
swapped input pairs. -/
theorem losPairs_fixDateLogic (t : MLTable) (as ds : List (Option Int))
    (hA : lookupCol t nmAdm = some (ColData.date as))
    (hD : lookupCol t nmDis = some (ColData.date ds)) :
    losPairs (fixDateLogic t) = (List.zip as ds).map swapPair := by
  have hne : nmAdm ≠ nmDis := by decide
  have hA1 : (lookupCol t nmAdm).isSome := by rw [hA]; rfl
  have hD1 : (lookupCol (setCol t nmAdm
      (ColData.date (((List.zip as ds).map swapPair).map Prod.fst))) nmDis).isSome := by
    rw [lookupCol_setCol_other _ _ _ _ hne.symm, hD]; rfl
  rw [fixDateLogic_eq t as ds hA hD]
  unfold losPairs
  rw [lookupCol_setCol_other _ _ _ _ hne, lookupCol_setCol_self _ _ _ hA1,
    lookupCol_setCol_self _ _ _ hD1]
  simp only
  exact zip_map_fst_snd_pairs _

/-- A swapped pair never has its second (discharge) strictly below its
first (admission). -/
theorem swapPair_not_neg (p : Option Int × Option Int) :
    ¬ (match swapPair p with
       | (some a, some d) => d < a
       | _ => false : Bool) = true := by
  rcases p with ⟨a?, d?⟩
  rcases a? with _ | a <;> rcases d? with _ | d <;> simp [swapPair]
  split_ifs with h
  · simp; omega
  · simp; omega

/-- **C1**: under the swap date-repair policy (`fix_date_logic_errors`),
after every violating (start, end) pair has been exchanged the
`end ≥ start` invariant is re-verified over all rows — the code's
`(los_fixed < 0).sum()`, embedded as `negLosCount` — and that count is
provably zero for every input table, so a residual violation after the
swap can never occur and the pipeline never continues past one or
produces output containing one.  (The fatal-error clause is satisfied
vacuously: the code's branch for a nonzero residual count is
unreachable.) -/
theorem C1_swap_reverify_no_residual (t : MLTable) (as ds : List (Option Int))
    (hA : lookupCol t nmAdm = some (ColData.date as))
    (hD : lookupCol t nmDis = some (ColData.date ds)) :
    negLosCount (fixDateLogic t) = 0 := by
  unfold negLosCount
  rw [losPairs_fixDateLogic t as ds hA hD, List.countP_eq_zero]
  intro q hq
  rw [List.mem_map] at hq
  obtain ⟨p, hp, rfl⟩ := hq
  exact swapPair_not_neg p

/-- Witness for C1 at a concrete table with one violating pair. -/
theorem C1_swap_reverify_no_residual_witness :
    negLosCount (fixDateLogic
      [(nmAdm, ColData.date [some 10]), (nmDis, ColData.date [some 3])]) = 0 :=
  C1_swap_reverify_no_residual _ [some 10] [some 3] (by decide) (by decide)

/-- **C8**: for every row whose two dates are both present after the swap
repair, the derived `Length_of_Stay` value (`losVal` over `losPairs`, as
built by `generate_ml_ready_features`) equals exactly discharge minus
admission in whole days and is non-negative; and the concrete scenario
`Date of Admission = 2024-05-10, Discharge Date = 2024-05-01` ends with
the dates exchanged and `Length_of_Stay = 9`. -/
theorem C8_length_of_stay :
    (∀ (t : MLTable) (as ds : List (Option Int)),
      lookupCol t nmAdm = some (ColData.date as) →
      lookupCol t nmDis = some (ColData.date ds) →
      ∀ (i : Nat) (a d : Int),
        (losPairs (fixDateLogic t)).get? i = some (some a, some d) →
        ((losPairs (fixDateLogic t)).map losVal).get? i
            = some (some ((d - a : Int) : ℚ)) ∧ 0 ≤ d - a) ∧
    fixDateLogic
        [(nmAdm, ColData.date [some (daysFromCivil 2024 5 10)]),
         (nmDis, ColData.date [some (daysFromCivil 2024 5 1)])] =
      [(nmAdm, ColData.date [some (daysFromCivil 2024 5 1)]),
       (nmDis, ColData.date [some (daysFromCivil 2024 5 10)])] ∧
    (losPairs (fixDateLogic
        [(nmAdm, ColData.date [some (daysFromCivil 2024 5 10)]),
         (nmDis, ColData.date [some (daysFromCivil 2024 5 1)])])).map losVal
      = [some (9 : ℚ)] := by
  refine ⟨?_, by decide, by decide⟩
  intro t as ds hA hD i a d hi
  constructor
  · rw [List.get?_map, hi]
    rfl
  · rw [losPairs_fixDateLogic t as ds hA hD] at hi
    have hmem : (some a, some d) ∈ (List.zip as ds).map swapPair :=
      List.mem_iff_get?.mpr ⟨i, hi⟩
    rw [List.mem_map] at hmem
    obtain ⟨p, hp, heq⟩ := hmem
    rcases p with ⟨a?, d?⟩
    rcases a? with _ | a0 <;> rcases d? with _ | d0 <;>
      simp only [swapPair] at heq
    · simp at heq
    · simp at heq
    · simp at heq
    · split_ifs at heq with h
      · simp only [Prod.mk.injEq, Option.some.injEq] at heq
        omega
      · simp only [Prod.mk.injEq, Option.some.injEq] at heq
        omega

/-- Witness for C8: the general part applied to the concrete swap
scenario. -/
theorem C8_length_of_stay_witness :
    ((losPairs (fixDateLogic
        [(nmAdm, ColData.date [some (daysFromCivil 2024 5 10)]),
         (nmDis, ColData.date [some (daysFromCivil 2024 5 1)])])).map losVal).get? 0
      = some (some ((daysFromCivil 2024 5 10 - daysFromCivil 2024 5 1 : Int) : ℚ)) ∧
    0 ≤ daysFromCivil 2024 5 10 - daysFromCivil 2024 5 1 :=
  C8_length_of_stay.1 _ [some (daysFromCivil 2024 5 10)] [some (daysFromCivil 2024 5 1)]
    (by decide) (by decide) 0 (daysFromCivil 2024 5 1) (daysFromCivil 2024 5 10) (by decide)

theorem imputeCatLowStep_missing (t : MLTable) (nm : Str)
    (h : lookupCol t nm = none) : imputeCatLowStep t nm = t := by
  unfold imputeCatLowStep; rw [h]

theorem imputeCatHighStep_missing (t : MLTable) (nm : Str)
    (h : lookupCol t nm = none) : imputeCatHighStep t nm = t := by
  unfold imputeCatHighStep; rw [h]

theorem imputeNumStep_missing (t : MLTable) (nm : Str)
    (h : lookupCol t nm = none) : imputeNumStep t nm = t := by
  unfold imputeNumStep; rw [h]

theorem imputeDateStep_missing (t : MLTable) (nm : Str)
    (h : lookupCol t nm = none) : imputeDateStep t nm = t := by
  unfold imputeDateStep; rw [h]

/-- **C9 counterexample**: `impute_categorical_low_missing` invoked for the
column `Gender` on a table that has no `Gender` column returns the table
unchanged and raises no error, and so does `handle_gender_missing`: the
rule is silently skipped and the pipeline continues, contradicting the
claim that a rule targeting a missing column is a fatal configuration
error that halts processing. -/
theorem C9_counterexample :
    imputeCatLow [nmGender] [(nmAge, ColData.num [some 1])]
        = [(nmAge, ColData.num [some 1])] ∧
      handleGender [(nmAge, ColData.num [some 1])]
        = [(nmAge, ColData.num [some 1])] := by
  constructor <;> decide

/-- **C9 (amended)**: in the imputation script every rule that targets a
column missing from the table silently skips it (the
`if col not in self.df.columns: continue` guards): the table is returned
unchanged, no error is raised and the pipeline continues.  (In the
cleaning script, which has no guards, a missing column surfaces as an
uncaught pandas `KeyError` naming the column but not the rule.) -/
theorem C9_missing_column_skipped (bs : List Str) (t : MLTable)
    (h : ∀ nm ∈ bs, lookupCol t nm = none) :
    imputeCatLow bs t = t ∧ imputeCatHigh bs t = t ∧ imputeNum bs t = t ∧
      imputeDate bs t = t ∧
      (lookupCol t nmGender = none → handleGender t = t) := by
  refine ⟨?_, ?_, ?_, ?_, ?_⟩
  · induction bs with
    | nil => rfl
    | cons b rest ih =>
      unfold imputeCatLow at *
      rw [List.foldl_cons, imputeCatLowStep_missing t b (h b (by simp))]
      exact ih (fun nm hm => h nm (by simp [hm]))
  · induction bs with
    | nil => rfl
    | cons b rest ih =>
      unfold imputeCatHigh at *
      rw [List.foldl_cons, imputeCatHighStep_missing t b (h b (by simp))]
      exact ih (fun nm hm => h nm (by simp [hm]))
  · induction bs with
    | nil => rfl
    | cons b rest ih =>
      unfold imputeNum at *
      rw [List.foldl_cons, imputeNumStep_missing t b (h b (by simp))]
      exact ih (fun nm hm => h nm (by simp [hm]))
  · induction bs with
    | nil => rfl
    | cons b rest ih =>
      unfold imputeDate at *
      rw [List.foldl_cons, imputeDateStep_missing t b (h b (by simp))]
      exact ih (fun nm hm => h nm (by simp [hm]))
  · intro hg
    unfold handleGender
    rw [hg]

/-- Witness for C9 at a concrete table and bucket list. -/
theorem C9_missing_column_skipped_witness :
    imputeCatLow [nmGender, nmMedication] [(nmAge, ColData.num [some 1, none])]
        = [(nmAge, ColData.num [some 1, none])] ∧
      imputeCatHigh [nmGender, nmMedication] [(nmAge, ColData.num [some 1, none])]
        = [(nmAge, ColData.num [some 1, none])] ∧
      imputeNum [nmGender, nmMedication] [(nmAge, ColData.num [some 1, none])]
        = [(nmAge, ColData.num [some 1, none])] ∧
      imputeDate [nmGender, nmMedication] [(nmAge, ColData.num [some 1, none])]
        = [(nmAge, ColData.num [some 1, none])] ∧
      (lookupCol [(nmAge, ColData.num [some 1, none])] nmGender = none →
        handleGender [(nmAge, ColData.num [some 1, none])]
          = [(nmAge, ColData.num [some 1, none])]) :=
  C9_missing_column_skipped [nmGender, nmMedication]
    [(nmAge, ColData.num [some 1, none])] (by decide)

/-- **C10**: the derived `Age_Group` value (`pd.cut` with bins
`(0,18], (18,35], (35,50], (50,65], (65,100]`) is absent whenever the age
is absent, equal to `0`, or greater than `100`; in particular every age in
`(100, 120]`, which the numeric range rule `clean_numerical_data` keeps
as valid, receives no bucket. -/
theorem C10_age_group_bounds :
    ageGroupVal none = none ∧ ageGroupVal (some 0) = none ∧
    (∀ x : ℚ, 100 < x → ageGroupVal (some x) = none) ∧
    (∀ x : ℚ, 100 < x → x ≤ 120 → cleanAgeVal (some x) = some x) := by
  refine ⟨rfl, ?_, ?_, ?_⟩
  · have h1 : ¬((0:ℚ) < 0 ∧ (0:ℚ) ≤ 18) := fun hh => by linarith [hh.1]
    have h2 : ¬((18:ℚ) < 0 ∧ (0:ℚ) ≤ 35) := fun hh => by linarith [hh.1]
    have h3 : ¬((35:ℚ) < 0 ∧ (0:ℚ) ≤ 50) := fun hh => by linarith [hh.1]
    have h4 : ¬((50:ℚ) < 0 ∧ (0:ℚ) ≤ 65) := fun hh => by linarith [hh.1]
    have h5 : ¬((65:ℚ) < 0 ∧ (0:ℚ) ≤ 100) := fun hh => by linarith [hh.1]
    simp only [ageGroupVal, if_neg h1, if_neg h2, if_neg h3, if_neg h4, if_neg h5]
  · intro x hx
    have h1 : ¬(0 < x ∧ x ≤ 18) := fun hh => by linarith [hh.2]
    have h2 : ¬(18 < x ∧ x ≤ 35) := fun hh => by linarith [hh.2]
    have h3 : ¬(35 < x ∧ x ≤ 50) := fun hh => by linarith [hh.2]
    have h4 : ¬(50 < x ∧ x ≤ 65) := fun hh => by linarith [hh.2]
    have h5 : ¬(65 < x ∧ x ≤ 100) := fun hh => by linarith [hh.2]
    simp only [ageGroupVal, if_neg h1, if_neg h2, if_neg h3, if_neg h4, if_neg h5]
  · intro x hx hx2
    have h : ¬(x < 0 ∨ x > 120) := by push_neg; constructor <;> linarith
    simp only [cleanAgeVal, if_neg h]

/-- Witness for C10 at age 110. -/
theorem C10_age_group_bounds_witness :
    ageGroupVal (some 110) = none ∧ cleanAgeVal (some 110) = some 110 :=
  ⟨C10_age_group_bounds.2.2.1 110 (by norm_num),
   C10_age_group_bounds.2.2.2 110 (by norm_num) (by norm_num)⟩

/-- **C6**: after `clean_numerical_data` runs, every billing amount is
either absent or lies in the inclusive range `[1, 1000000]` (hence none is
negative); and the concrete scenario `-500` is corrected by sign-flip to
`500`, not dropped. -/
theorem cleanBillingVal_range (v : Option ℚ) :
    cleanBillingVal v = none ∨
      ∃ x : ℚ, cleanBillingVal v = some x ∧ 1 ≤ x ∧ x ≤ 1000000 := by
  rcases v with _ | x
  · exact Or.inl rfl
  · show (if (if x < 0 then -x else x) > 1000000 then some (1000000:ℚ)
        else if (if x < 0 then -x else x) < 1 then none
        else some (if x < 0 then -x else x)) = none ∨
      ∃ z : ℚ, (if (if x < 0 then -x else x) > 1000000 then some (1000000:ℚ)
        else if (if x < 0 then -x else x) < 1 then none
        else some (if x < 0 then -x else x)) = some z ∧ 1 ≤ z ∧ z ≤ 1000000
    set y := if x < 0 then -x else x with hy
    have hy0 : 0 ≤ y := by rw [hy]; split_ifs with h0 <;> linarith
    split_ifs with h1 h2
    · exact Or.inr ⟨1000000, rfl, by norm_num, le_refl _⟩
    · exact Or.inl rfl
    · exact Or.inr ⟨y, rfl, by linarith, by linarith⟩

theorem C6_billing_range :
    (∀ (t : List Row) (r : Row), r ∈ cleanNumerical t →
      r.billingAmount = none ∨
        ∃ x : ℚ, r.billingAmount = some x ∧ 1 ≤ x ∧ x ≤ 1000000) ∧
    cleanBillingVal (some (-500)) = some 500 := by
  constructor
  · intro t r hr
    rw [cleanNumerical, List.mem_map] at hr
    obtain ⟨r0, _, rfl⟩ := hr
    exact cleanBillingVal_range r0.billingAmount
  · decide

/-- Witness for C6 at a one-row table holding billing amount `-500`. -/
theorem C6_billing_range_witness :
    (cleanNumericalRow { emptyRow with billingAmount := some (-500) }).billingAmount = none ∨
      ∃ x : ℚ,
        (cleanNumericalRow { emptyRow with billingAmount := some (-500) }).billingAmount
            = some x ∧ 1 ≤ x ∧ x ≤ 1000000 :=
  C6_billing_range.1 [{ emptyRow with billingAmount := some (-500) }] _
    (List.mem_singleton.mpr rfl)

/-- **C3 counterexample**: `fix_name_formatting` does *not* map
`"jOHN o'BRIEN-smith"` to `"John O'Brien-Smith"` — Python
`str.capitalize()` lowercases everything after the first character, so
the letter after the apostrophe stays lowercase. -/
theorem C3_counterexample :
    fixName (encode "jOHN o'BRIEN-smith") ≠ encode "John O'Brien-Smith" := by
  decide

/-- **C3 (amended)**: the rule maps `"jOHN o'BRIEN-smith"` to exactly
`"John O'brien-Smith"`: whitespace-split parts are split again on internal
hyphens, each segment is `str.capitalize`d independently (first character
uppercased, the rest — including letters after an apostrophe — lowercased)
and segments are rejoined with `-`. -/
theorem C3_name_scenario :
    fixName (encode "jOHN o'BRIEN-smith") = encode "John O'brien-Smith" := by
  decide

/-- **C4 counterexample**: an absent Blood Type cell does *not* pass
through the categorical validation rule unchanged — `clean_blood_types`
masks with `~isin(valid_blood_types)` without excluding nulls, so an
absent cell is rewritten to the sentinel `'Unknown'`. -/
theorem C4_counterexample : cleanBloodVal none ≠ none := by decide

/-- **C4 (amended)**: the Gender rule applies its to-absent policy to
exactly the non-absent values outside `{Male, Female}` and passes absent
cells through unchanged; the Blood Type rule applies its `'Unknown'`
sentinel policy to *every* value outside the 8 accepted codes, including
absent cells. -/
theorem C4_policy_application :
    (∀ s, s ∈ validGenders → cleanGenderVal (some s) = some s) ∧
    (∀ s, s ∉ validGenders → cleanGenderVal (some s) = none) ∧
    cleanGenderVal none = none ∧
    (∀ s, s ∈ validBloodTypes → cleanBloodVal (some s) = some s) ∧
    (∀ s, s ∉ validBloodTypes → cleanBloodVal (some s) = some (encode "Unknown")) ∧
    cleanBloodVal none = some (encode "Unknown") := by
  refine ⟨?_, ?_, rfl, ?_, ?_, rfl⟩
  · intro s hs
    simp only [validGenders, List.mem_cons, List.not_mem_nil, or_false] at hs
    rcases hs with rfl | rfl <;> decide
  · intro s hs
    rw [cleanGenderVal]
    by_cases h1 : isLiteralNan s
    · rw [if_pos h1]
    · rw [if_neg h1, if_neg hs]
  · intro s hs
    rw [cleanBloodVal, if_pos hs]
  · intro s hs
    rw [cleanBloodVal, if_neg hs]

/-- Witness for C4 at concrete values. -/
theorem C4_policy_application_witness :
    cleanGenderVal (some (encode "Male")) = some (encode "Male") ∧
    cleanGenderVal (some (encode "xyz")) = none ∧
    cleanBloodVal (some (encode "A+")) = some (encode "A+") ∧
    cleanBloodVal (some (encode "Z+")) = some (encode "Unknown") :=
  ⟨C4_policy_application.1 _ (by decide),
   C4_policy_application.2.1 _ (by decide),
   C4_policy_application.2.2.2.1 _ (by decide),
   C4_policy_application.2.2.2.2.1 _ (by decide)⟩

/-- The pre-pass mask count of `clean_gender_data`
(`literal_nan_mask.sum()`): present cells matching `^[Nn]a[Nn]$`. -/
def nanPrePassCount (cells : List (Option Str)) : Nat :=
  cells.countP (fun o => match o with | some s => isLiteralNan s | none => false)

/-- **C5 counterexample**: the literal string `"NAN"` is a case-insensitive
spelling of "nan" (its lowercasing is `"nan"`), yet the pre-pass regex
`^[Nn]a[Nn]$` — whose middle letter is lowercase-only — does not match it,
so it is not converted (or counted) by the pre-pass, contradicting the
claim that the match is case-insensitive and includes `"NAN"`. -/
theorem C5_counterexample :
    lowS (encode "NAN") = encode "nan" ∧
      nanPrePassCount [some (encode "NAN")] = 0 := by decide

/-- **C5 (amended)**: the pre-pass converts exactly the spellings matched
by `[Nn]a[Nn]` — first and last letter case-insensitive, middle letter
lowercase `a` — and reports their count; any other case-insensitive "nan"
spelling (such as `"NAN"`) falls through to the accepted-set check, which
also nulls it, so after the Gender rule every literal "nan" spelling is
absent; a converted cell is thereafter treated like an absent cell, e.g.
mode-filled by the imputation script's gender handler. -/
theorem C5_nan_prepass :
    (∀ s : Str, lowS s = encode "nan" →
      (isLiteralNan s = true ↔ s.get? 1 = some 97)) ∧
    (∀ s : Str, lowS s = encode "nan" → cleanGenderVal (some s) = none) ∧
    handleGender
        [(nmGender, ColData.str [some (encode "Male"), some (encode "Male"), none])]
      = [(nmGender, ColData.str
          [some (encode "Male"), some (encode "Male"), some (encode "Male")])] := by
  have hsplit : ∀ s : Str, lowS s = encode "nan" →
      ∃ a b c, s = [a, b, c] ∧ (a = 78 ∨ a = 110) ∧ (b = 65 ∨ b = 97) ∧
        (c = 78 ∨ c = 110) := by
    intro s h
    match s with
    | [] => simp [lowS, encode] at h
    | [a] => simp [lowS, encode] at h
    | [a, b] => simp [lowS, encode] at h
    | a :: b :: c :: d :: rest => simp [lowS, encode] at h
    | [a, b, c] =>
      refine ⟨a, b, c, rfl, ?_⟩
      have hl : lowS [a, b, c] = [lowC a, lowC b, lowC c] := rfl
      have he : encode "nan" = [110, 97, 110] := by decide
      rw [hl, he] at h
      simp only [List.cons.injEq, and_true] at h
      obtain ⟨ha, hb, hc⟩ := h
      refine ⟨?_, ?_, ?_⟩
      · rw [lowC] at ha; split_ifs at ha <;> omega
      · rw [lowC] at hb; split_ifs at hb <;> omega
      · rw [lowC] at hc; split_ifs at hc <;> omega
  refine ⟨?_, ?_, by decide⟩
  · intro s h
    obtain ⟨a, b, c, rfl, ha, hb, hc⟩ := hsplit s h
    rcases ha with rfl | rfl <;> rcases hb with rfl | rfl <;>
      rcases hc with rfl | rfl <;> decide
  · intro s h
    obtain ⟨a, b, c, rfl, ha, hb, hc⟩ := hsplit s h
    rcases ha with rfl | rfl <;> rcases hb with rfl | rfl <;>
      rcases hc with rfl | rfl <;> decide

/-- Witness for C5 at the spellings `"NaN"` and `"nAn"`. -/
theorem C5_nan_prepass_witness :
    (isLiteralNan (encode "NaN") = true ↔ (encode "NaN").get? 1 = some 97) ∧
    cleanGenderVal (some (encode "nAn")) = none :=
  ⟨C5_nan_prepass.1 (encode "NaN") (by decide),
   C5_nan_prepass.2.1 (encode "nAn") (by decide)⟩

/-- A row that differs from the all-absent row only in its blood type. -/
def bloodOnlyRow (s : String) : Row := { emptyRow with bloodType := some (encode s) }

/-- **C2 counterexample**: the full cleaning pipeline is not idempotent.
Two rows that differ only in their (invalid) blood types `"X"` and `"Y"`
survive the first run's duplicate removal, are then both coerced to
`'Unknown'`, and the second run's duplicate removal — which runs first —
deletes one of the now-identical rows, so the second output differs from
the first. -/
theorem C2_counterexample :
    cleanPipeline (cleanPipeline [bloodOnlyRow "X", bloodOnlyRow "Y"]) ≠
      cleanPipeline [bloodOnlyRow "X", bloodOnlyRow "Y"] := by decide

/-- **C7 counterexample**: a `Discharge Date` column whose cells are all
absent is designated for the directional-fill policy by the pattern
analysis, yet the pipeline's output still contains its absent cells
(forward/backward fill has no present value to propagate), contradicting
the claim that every fill-policy column ends with no absent cell. -/
theorem C7_counterexample :
    (analyze [(nmDis, ColData.date [none, none])]).dates = [nmDis] ∧
    mlPipeline [(nmDis, ColData.date [none, none])] =
      Except.ok [(nmDis, ColData.date [none, none])] :=
  ⟨by decide, rfl⟩

/-!
## Machinery for the amended C7: what the fill policies guarantee
-/

/-- Does a column hold at least one present value? -/
def colHasPresent : ColData → Bool
  | .str cells => cells.any (fun o => o.isSome)
  | .num cells => cells.any (fun o => o.isSome)
  | .date cells => cells.any (fun o => o.isSome)

theorem countP_none_fill {α : Type} [DecidableEq α] (v : α) (cells : List (Option α)) :
    (cells.map (fun o => some (o.getD v))).countP (fun o => o = none) = 0 := by
  induction cells with
  | nil => rfl
  | cons c rest ih =>
    rw [List.map_cons, List.countP_cons]
    simp only [ih]
    rfl

theorem any_isSome_of_full {α : Type} [DecidableEq α] (cells : List (Option α))
    (hne : cells ≠ []) (h : cells.countP (fun o => o = none) = 0) :
    cells.any (fun o => o.isSome) = true := by
  rcases cells with _ | ⟨c, rest⟩
  · exact absurd rfl hne
  · rw [List.countP_cons] at h
    rcases c with _ | v
    · simp at h
    · simp

theorem countP_ne_zero_ne_nil {α : Type} [DecidableEq α] (cells : List (Option α))
    (h : cells.countP (fun o => o = none) ≠ 0) : cells ≠ [] := by
  intro hc; subst hc; exact h rfl

theorem length_fill {α : Type} (v : α) (cells : List (Option α)) :
    (cells.map (fun o => some (o.getD v))).length = cells.length := List.length_map _ _

theorem foldl_isSome {α β : Type} (f : Option α → β → Option α)
    (hf : ∀ b v, (f (some b) v).isSome = true) :
    ∀ (ys : List β) (b : α), ((ys.foldl f (some b))).isSome = true := by
  intro ys
  induction ys with
  | nil => intro b; rfl
  | cons y yrest ih =>
    intro b
    rw [List.foldl_cons]
    obtain ⟨b2, hb2⟩ := Option.isSome_iff_exists.mp (hf b y)
    rw [hb2]
    exact ih b2

/-- `modeStr` is defined whenever there is a present value. -/
theorem modeStr_isSome (l : List Str) (h : l ≠ []) : (modeStr l).isSome = true := by
  unfold modeStr
  rcases l with _ | ⟨x, rest⟩
  · exact absurd rfl h
  · rw [List.foldl_cons]
    exact foldl_isSome _ (fun b v => by simp only; split_ifs <;> rfl) rest x

theorem filterMap_id_ne_nil {α : Type} (cells : List (Option α))
    (h : cells.any (fun o => o.isSome) = true) : cells.filterMap id ≠ [] := by
  induction cells with
  | nil => simp at h
  | cons c rest ih =>
    rcases c with _ | v
    · simp only [List.any_cons, Option.isSome_none, Bool.false_or] at h
      simpa using ih h
    · simp

theorem insertQ_length (x : ℚ) (l : List ℚ) : (insertQ x l).length = l.length + 1 := by
  induction l with
  | nil => rfl
  | cons y rest ih =>
    rw [insertQ]
    split_ifs
    · rfl
    · simpa [List.length_cons] using ih

theorem sortQ_length (l : List ℚ) : (sortQ l).length = l.length := by
  induction l with
  | nil => rfl
  | cons x rest ih => rw [sortQ, insertQ_length, ih, List.length_cons]

/-- The pandas median is defined on a nonempty list. -/
theorem medianQ_isSome (l : List ℚ) (h : l ≠ []) : (medianQ l).isSome = true := by
  rcases l with _ | ⟨x, rest⟩
  · exact absurd rfl h
  · have hlen : (sortQ (x :: rest)).length = rest.length + 1 := by
      rw [sortQ_length, List.length_cons]
    simp only [medianQ]
    by_cases hodd : (sortQ (x :: rest)).length % 2 = 1
    · rw [if_pos hodd]
      have hlt : (sortQ (x :: rest)).length / 2 < (sortQ (x :: rest)).length := by omega
      rw [List.get?_eq_get hlt]
      rfl
    · rw [if_neg hodd]
      have hlt1 : (sortQ (x :: rest)).length / 2 - 1 < (sortQ (x :: rest)).length := by omega
      have hlt2 : (sortQ (x :: rest)).length / 2 < (sortQ (x :: rest)).length := by omega
      rw [List.get?_eq_get hlt1, List.get?_eq_get hlt2]
      rfl

theorem countP_none_ffillAux_some {α : Type} [DecidableEq α] (v : α)
    (l : List (Option α)) :
    (ffillAux (some v) l).countP (fun o => o = none) = 0 := by
  induction l generalizing v with
  | nil => rfl
  | cons c rest ih =>
    rcases c with _ | w
    · rw [ffillAux, List.countP_cons]
      simp only [ih]
      rfl
    · rw [ffillAux, List.countP_cons]
      simp only [ih]
      rfl

/-- `ffill` on a list with some present value: a (possibly empty) absent
prefix followed by a fully present tail. -/
theorem ffill_decompose {α : Type} [DecidableEq α] (l : List (Option α))
    (h : l.any (fun o => o.isSome) = true) :
    ∃ (k : Nat) (m : List (Option α)),
      ffill l = List.replicate k none ++ m ∧
        m.countP (fun o => o = none) = 0 ∧ m ≠ [] := by
  induction l with
  | nil => simp at h
  | cons c rest ih =>
    rcases c with _ | v
    · simp only [List.any_cons, Option.isSome_none, Bool.false_or] at h
      obtain ⟨k, m, h1, h2, h3⟩ := ih h
      exact ⟨k + 1, m, by
        show none :: ffillAux none rest = _
        rw [show ffillAux (none : Option α) rest = ffill rest from rfl, h1]
        rfl, h2, h3⟩
    · refine ⟨0, some v :: ffillAux (some v) rest, rfl, ?_, by simp⟩
      rw [List.countP_cons]
      simp only [countP_none_ffillAux_some]
      rfl

theorem countP_none_ffillAux_full_head {α : Type} [DecidableEq α]
    (xs ys : List (Option α)) (hne : xs ≠ [])
    (hfull : xs.countP (fun o => o = none) = 0) :
    (ffillAux none (xs ++ ys)).countP (fun o => o = none) = 0 := by
  rcases xs with _ | ⟨x, rest⟩
  · exact absurd rfl hne
  · rcases x with _ | v
    · rw [List.countP_cons] at hfull
      simp at hfull
    · show ((some v :: ffillAux (some v) (rest ++ ys)).countP (fun o => o = none)) = 0
      rw [List.countP_cons]
      simp only [countP_none_ffillAux_some]
      rfl

/-- Directional fill (`ffill` then `bfill`) leaves no absent cell as soon
as the column has one present value. -/
theorem bfill_ffill_full {α : Type} [DecidableEq α] (l : List (Option α))
    (h : l.any (fun o => o.isSome) = true) :
    (bfill (ffill l)).countP (fun o => o = none) = 0 := by
  obtain ⟨k, m, h1, h2, h3⟩ := ffill_decompose l h
  rw [h1]
  unfold bfill
  rw [List.countP_reverse]
  rw [List.reverse_append, List.reverse_replicate]
  apply countP_none_ffillAux_full_head
  · intro hc
    rw [List.reverse_eq_nil_iff] at hc
    exact h3 hc
  · rw [List.countP_reverse]
    exact h2

theorem ffillAux_length {α : Type} (last : Option α) (l : List (Option α)) :
    (ffillAux last l).length = l.length := by
  induction l generalizing last with
  | nil => rfl
  | cons c rest ih =>
    rcases c with _ | v <;> simp [ffillAux, ih]

theorem bfill_ffill_length {α : Type} (l : List (Option α)) :
    (bfill (ffill l)).length = l.length := by
  unfold bfill ffill
  rw [List.length_reverse, ffillAux_length, List.length_reverse, ffillAux_length]

/-- The column at `nm` exists and has no absent cell. -/
def FilledAt (t : MLTable) (nm : Str) : Prop :=
  ∃ c, lookupCol t nm = some c ∧ colMissing c = 0

/-- The column at `nm` is an object column. -/
def StrColAt (t : MLTable) (nm : Str) : Prop :=
  ∃ cells, lookupCol t nm = some (ColData.str cells)

/-- The column at `nm` is an object column with a present value. -/
def PresStrAt (t : MLTable) (nm : Str) : Prop :=
  ∃ cells, lookupCol t nm = some (ColData.str cells) ∧
    cells.any (fun o => o.isSome) = true

/-- The column at `nm` is a numeric column with a present value. -/
def PresNumAt (t : MLTable) (nm : Str) : Prop :=
  ∃ cells, lookupCol t nm = some (ColData.num cells) ∧
    cells.any (fun o => o.isSome) = true

/-- The column at `nm` is a date column with a present value. -/
def PresDateAt (t : MLTable) (nm : Str) : Prop :=
  ∃ cells, lookupCol t nm = some (ColData.date cells) ∧
    cells.any (fun o => o.isSome) = true

/-- The five invariants tracked through the dispatch stages. -/
def AllPres (t u : MLTable) (nm : Str) : Prop :=
  (FilledAt t nm → FilledAt u nm) ∧
  (PresStrAt t nm → PresStrAt u nm) ∧
  (StrColAt t nm → StrColAt u nm) ∧
  (PresNumAt t nm → PresNumAt u nm) ∧
  (PresDateAt t nm → PresDateAt u nm)

theorem allPres_refl (t : MLTable) (nm : Str) : AllPres t t nm :=
  ⟨id, id, id, id, id⟩

/-- A step that either leaves the table alone or replaces one
partly-absent string column by a same-name filled string column
preserves all five invariants. -/
theorem allPres_of_strfill {t u : MLTable} {nm2 : Str}
    (hs : u = t ∨ ∃ cells v, lookupCol t nm2 = some (ColData.str cells) ∧
      countNoneStr cells ≠ 0 ∧ u = setCol t nm2 (ColData.str (fillCellsStr v cells)))
    (nm : Str) : AllPres t u nm := by
  rcases hs with rfl | ⟨cells, v, hl, hm, rfl⟩
  · exact ⟨id, id, id, id, id⟩
  · by_cases hnm : nm = nm2
    · subst hnm
      have hset : lookupCol (setCol t nm (ColData.str (fillCellsStr v cells))) nm
          = some (ColData.str (fillCellsStr v cells)) :=
        lookupCol_setCol_self _ _ _ (by rw [hl]; rfl)
      have hfull : countNoneStr (fillCellsStr v cells) = 0 := countP_none_fill v cells
      have hne : fillCellsStr v cells ≠ [] := by
        have := countP_ne_zero_ne_nil cells hm
        intro he
        exact this (List.map_eq_nil.mp he)
      refine ⟨?_, ?_, ?_, ?_, ?_⟩
      · rintro ⟨c, hc, hmiss⟩
        rw [hl] at hc; cases hc
        exact absurd hmiss hm
      · rintro ⟨cells0, hc, _⟩
        exact ⟨fillCellsStr v cells, hset, any_isSome_of_full _ hne hfull⟩
      · rintro ⟨cells0, hc⟩
        exact ⟨fillCellsStr v cells, hset⟩
      · rintro ⟨cells0, hc, _⟩
        rw [hl] at hc; cases hc
      · rintro ⟨cells0, hc, _⟩
        rw [hl] at hc; cases hc
    · have heq : lookupCol (setCol t nm2 (ColData.str (fillCellsStr v cells))) nm
          = lookupCol t nm := lookupCol_setCol_other _ _ _ _ hnm
      unfold AllPres FilledAt PresStrAt StrColAt PresNumAt PresDateAt
      rw [heq]
      exact ⟨id, id, id, id, id⟩

/-- Same for a numeric fill step. -/
theorem allPres_of_numfill {t u : MLTable} {nm2 : Str}
    (hs : u = t ∨ ∃ cells v, lookupCol t nm2 = some (ColData.num cells) ∧
      countNoneQ cells ≠ 0 ∧ u = setCol t nm2 (ColData.num (fillCellsQ v cells)))
    (nm : Str) : AllPres t u nm := by
  rcases hs with rfl | ⟨cells, v, hl, hm, rfl⟩
  · exact ⟨id, id, id, id, id⟩
  · by_cases hnm : nm = nm2
    · subst hnm
      have hset : lookupCol (setCol t nm (ColData.num (fillCellsQ v cells))) nm
          = some (ColData.num (fillCellsQ v cells)) :=
        lookupCol_setCol_self _ _ _ (by rw [hl]; rfl)
      have hfull : countNoneQ (fillCellsQ v cells) = 0 := countP_none_fill v cells
      have hne : fillCellsQ v cells ≠ [] := by
        have := countP_ne_zero_ne_nil cells hm
        intro he
        exact this (List.map_eq_nil.mp he)
      refine ⟨?_, ?_, ?_, ?_, ?_⟩
      · rintro ⟨c, hc, hmiss⟩
        rw [hl] at hc; cases hc
        exact absurd hmiss hm
      · rintro ⟨cells0, hc, _⟩
        rw [hl] at hc; cases hc
      · rintro ⟨cells0, hc⟩
        rw [hl] at hc; cases hc
      · rintro ⟨cells0, hc, _⟩
        exact ⟨fillCellsQ v cells, hset, any_isSome_of_full _ hne hfull⟩
      · rintro ⟨cells0, hc, _⟩
        rw [hl] at hc; cases hc
    · have heq : lookupCol (setCol t nm2 (ColData.num (fillCellsQ v cells))) nm
          = lookupCol t nm := lookupCol_setCol_other _ _ _ _ hnm
      unfold AllPres FilledAt PresStrAt StrColAt PresNumAt PresDateAt
      rw [heq]
      exact ⟨id, id, id, id, id⟩

/-- Same for the directional-fill step on a date column. -/
theorem allPres_of_datefill {t u : MLTable} {nm2 : Str}
    (hs : u = t ∨ ∃ cells, lookupCol t nm2 = some (ColData.date cells) ∧
      countNoneD cells ≠ 0 ∧ u = setCol t nm2 (ColData.date (bfill (ffill cells)))) 
    (nm : Str) : AllPres t u nm := by
  rcases hs with rfl | ⟨cells, hl, hm, rfl⟩
  · exact ⟨id, id, id, id, id⟩
  · by_cases hnm : nm = nm2
    · subst hnm
      have hset : lookupCol (setCol t nm (ColData.date (bfill (ffill cells)))) nm
          = some (ColData.date (bfill (ffill cells))) :=
        lookupCol_setCol_self _ _ _ (by rw [hl]; rfl)
      refine ⟨?_, ?_, ?_, ?_, ?_⟩
      · rintro ⟨c, hc, hmiss⟩
        rw [hl] at hc; cases hc
        exact absurd hmiss hm
      · rintro ⟨cells0, hc, _⟩
        rw [hl] at hc; cases hc
      · rintro ⟨cells0, hc⟩
        rw [hl] at hc; cases hc
      · rintro ⟨cells0, hc, _⟩
        rw [hl] at hc; cases hc
      · rintro ⟨cells0, hc, hp⟩
        rw [hl] at hc
        have hceq : cells = cells0 := by
          injection hc with hc2
          injection hc2
        subst hceq
        have hfull := bfill_ffill_full cells hp
        have hlen : (bfill (ffill cells)).length = cells.length := bfill_ffill_length _
        have hne0 : cells ≠ [] := by
          intro he; subst he; simp at hp
        have hne : bfill (ffill cells) ≠ [] := by
          intro he
          rw [he] at hlen
          exact hne0 (List.length_eq_zero.mp hlen.symm)
        exact ⟨bfill (ffill cells), hset, any_isSome_of_full _ hne hfull⟩
    · have heq : lookupCol (setCol t nm2 (ColData.date (bfill (ffill cells)))) nm
          = lookupCol t nm := lookupCol_setCol_other _ _ _ _ hnm
      unfold AllPres FilledAt PresStrAt StrColAt PresNumAt PresDateAt
      rw [heq]
      exact ⟨id, id, id, id, id⟩

theorem imputeCatLowStep_shape (t : MLTable) (nm2 : Str) :
    imputeCatLowStep t nm2 = t ∨
      ∃ cells v, lookupCol t nm2 = some (ColData.str cells) ∧
        countNoneStr cells ≠ 0 ∧
        imputeCatLowStep t nm2 = setCol t nm2 (ColData.str (fillCellsStr v cells)) := by
  rcases hl : lookupCol t nm2 with _ | c
  · left; simp only [imputeCatLowStep, hl]
  · rcases c with cells | cells | cells
    · by_cases hz : countNoneStr cells = 0
      · left; simp only [imputeCatLowStep, hl, if_pos hz]
      · rcases hm : modeStr (cells.filterMap id) with _ | m
        · left; simp only [imputeCatLowStep, hl, if_neg hz, hm]
        · exact Or.inr ⟨cells, m, rfl, hz,
            by simp only [imputeCatLowStep, hl, if_neg hz, hm]⟩
    · left; simp only [imputeCatLowStep, hl]
    · left; simp only [imputeCatLowStep, hl]
theorem imputeCatHighStep_shape (t : MLTable) (nm2 : Str) :
    imputeCatHighStep t nm2 = t ∨
      ∃ cells v, lookupCol t nm2 = some (ColData.str cells) ∧
        countNoneStr cells ≠ 0 ∧
        imputeCatHighStep t nm2 = setCol t nm2 (ColData.str (fillCellsStr v cells)) := by
  rcases hl : lookupCol t nm2 with _ | c
  · left; simp only [imputeCatHighStep, hl]
  · rcases c with cells | cells | cells
    · by_cases hz : countNoneStr cells = 0
      · left; simp only [imputeCatHighStep, hl, if_pos hz]
      · exact Or.inr ⟨cells,
          (if nm2 = nmInsurance then encode "Self-Pay"
           else if nm2 = nmMedication then encode "No Medication"
           else if nm2 = nmAdmType then
             (modeStr (List.filterMap id cells)).getD (encode "Emergency")
           else encode "Unknown"), rfl, hz,
          by simp only [imputeCatHighStep, hl, if_neg hz]⟩
    · left; simp only [imputeCatHighStep, hl]
    · left; simp only [imputeCatHighStep, hl]
theorem imputeNumStep_shape (t : MLTable) (nm2 : Str) :
    imputeNumStep t nm2 = t ∨
      ∃ cells v, lookupCol t nm2 = some (ColData.num cells) ∧
        countNoneQ cells ≠ 0 ∧
        imputeNumStep t nm2 = setCol t nm2 (ColData.num (fillCellsQ v cells)) := by
  rcases hl : lookupCol t nm2 with _ | c
  · left; simp only [imputeNumStep, hl]
  · rcases c with cells | cells | cells
    · left; simp only [imputeNumStep, hl]
    · by_cases hz : countNoneQ cells = 0
      · left; simp only [imputeNumStep, hl, if_pos hz]
      · rcases hm : (if containsSub (encode "billing") (lowS nm2)
              ∨ containsSub (encode "amount") (lowS nm2) then
            medianQ (cells.filterMap id) else meanQ (cells.filterMap id)) with _ | v
        · left; simp only [imputeNumStep, hl, if_neg hz, hm]
        · exact Or.inr ⟨cells, v, rfl, hz,
            by simp only [imputeNumStep, hl, if_neg hz, hm]⟩
    · left; simp only [imputeNumStep, hl]
theorem imputeDateStep_shape (t : MLTable) (nm2 : Str) :
    imputeDateStep t nm2 = t ∨
      ∃ cells, lookupCol t nm2 = some (ColData.date cells) ∧
        countNoneD cells ≠ 0 ∧
        imputeDateStep t nm2 = setCol t nm2 (ColData.date (bfill (ffill cells))) := by
  rcases hl : lookupCol t nm2 with _ | c
  · left; simp only [imputeDateStep, hl]
  · rcases c with cells | cells | cells
    · left; simp only [imputeDateStep, hl]
    · left; simp only [imputeDateStep, hl]
    · by_cases hz : countNoneD cells = 0
      · left; simp only [imputeDateStep, hl, if_pos hz]
      · exact Or.inr ⟨cells, rfl, hz,
          by simp only [imputeDateStep, hl, if_neg hz]⟩
theorem handleGender_shape (t : MLTable) :
    handleGender t = t ∨
      ∃ cells v, lookupCol t nmGender = some (ColData.str cells) ∧
        countNoneStr cells ≠ 0 ∧
        handleGender t = setCol t nmGender (ColData.str (fillCellsStr v cells)) := by
  rcases hl : lookupCol t nmGender with _ | c
  · left; simp only [handleGender, hl]
  · rcases c with cells | cells | cells
    · by_cases hz : countNoneStr cells = 0
      · left; simp only [handleGender, hl, if_pos hz]
      · rcases hm : modeStr (cells.filterMap id) with _ | m
        · left; simp only [handleGender, hl, if_neg hz, hm]
        · exact Or.inr ⟨cells, m, rfl, hz,
            by simp only [handleGender, hl, if_neg hz, hm]⟩
    · left; simp only [handleGender, hl]
    · left; simp only [handleGender, hl]
theorem foldl_preserves_pred {P : MLTable → Prop} (step : MLTable → Str → MLTable)
    (hstep : ∀ u nm2, P u → P (step u nm2)) (bs : List Str) (t : MLTable)
    (h : P t) : P (bs.foldl step t) := by
  induction bs generalizing t with
  | nil => exact h
  | cons b rest ih =>
    rw [List.foldl_cons]
    exact ih _ (hstep t b h)

/-- Folding over a bucket that contains `nm` establishes the postcondition
at `nm`, provided every step preserves both conditions and the step at
`nm` turns the precondition into the postcondition. -/
theorem foldl_mem_achieve {Pre Post : MLTable → Str → Prop}
    (step : MLTable → Str → MLTable)
    (hPre : ∀ u nm2 nm, Pre u nm → Pre (step u nm2) nm)
    (hPost : ∀ u nm2 nm, Post u nm → Post (step u nm2) nm)
    (hAch : ∀ u nm, Pre u nm → Post (step u nm) nm)
    (bs : List Str) (t : MLTable) (nm : Str)
    (hmem : nm ∈ bs) (h : Pre t nm) : Post (bs.foldl step t) nm := by
  induction bs generalizing t with
  | nil => cases hmem
  | cons b rest ih =>
    rw [List.foldl_cons]
    rcases List.mem_cons.mp hmem with rfl | hmem2
    · exact foldl_preserves_pred step (fun u nm2 => hPost u nm2 nm) rest _ (hAch t nm h)
    · exact ih _ hmem2 (hPre t b nm h)

theorem imputeCatLowStep_achieves (u : MLTable) (nm : Str)
    (h : PresStrAt u nm) : FilledAt (imputeCatLowStep u nm) nm := by
  obtain ⟨cells, hl, hp⟩ := h
  by_cases hz : countNoneStr cells = 0
  · have he : imputeCatLowStep u nm = u := by
      simp only [imputeCatLowStep, hl, if_pos hz]
    rw [he]
    exact ⟨ColData.str cells, hl, hz⟩
  · obtain ⟨m, hm⟩ := Option.isSome_iff_exists.mp
      (modeStr_isSome _ (filterMap_id_ne_nil cells hp))
    have he : imputeCatLowStep u nm = setCol u nm (ColData.str (fillCellsStr m cells)) := by
      simp only [imputeCatLowStep, hl, if_neg hz, hm]
    rw [he]
    exact ⟨ColData.str (fillCellsStr m cells),
      lookupCol_setCol_self _ _ _ (by rw [hl]; rfl), countP_none_fill m cells⟩
theorem imputeCatHighStep_achieves (u : MLTable) (nm : Str)
    (h : StrColAt u nm) : FilledAt (imputeCatHighStep u nm) nm := by
  obtain ⟨cells, hl⟩ := h
  by_cases hz : countNoneStr cells = 0
  · have he : imputeCatHighStep u nm = u := by
      simp only [imputeCatHighStep, hl, if_pos hz]
    rw [he]
    exact ⟨ColData.str cells, hl, hz⟩
  · have he : imputeCatHighStep u nm = setCol u nm (ColData.str (fillCellsStr
        (if nm = nmInsurance then encode "Self-Pay"
         else if nm = nmMedication then encode "No Medication"
         else if nm = nmAdmType then
           (modeStr (List.filterMap id cells)).getD (encode "Emergency")
         else encode "Unknown") cells)) := by
      simp only [imputeCatHighStep, hl, if_neg hz]
    rw [he]
    exact ⟨ColData.str (fillCellsStr _ cells),
      lookupCol_setCol_self _ _ _ (by rw [hl]; rfl), countP_none_fill _ cells⟩
theorem meanQ_isSome (l : List ℚ) (h : l ≠ []) : (meanQ l).isSome = true := by
  rcases l with _ | ⟨x, rest⟩
  · exact absurd rfl h
  · rfl

theorem imputeNumStep_achieves (u : MLTable) (nm : Str)
    (h : PresNumAt u nm) : FilledAt (imputeNumStep u nm) nm := by
  obtain ⟨cells, hl, hp⟩ := h
  by_cases hz : countNoneQ cells = 0
  · have he : imputeNumStep u nm = u := by
      simp only [imputeNumStep, hl, if_pos hz]
    rw [he]
    exact ⟨ColData.num cells, hl, hz⟩
  · have hne := filterMap_id_ne_nil cells hp
    have hstat : (if containsSub (encode "billing") (lowS nm)
          ∨ containsSub (encode "amount") (lowS nm) then
        medianQ (cells.filterMap id) else meanQ (cells.filterMap id)).isSome = true := by
      split_ifs
      · exact medianQ_isSome _ hne
      · exact meanQ_isSome _ hne
    obtain ⟨v, hv⟩ := Option.isSome_iff_exists.mp hstat
    have he : imputeNumStep u nm = setCol u nm (ColData.num (fillCellsQ v cells)) := by
      simp only [imputeNumStep, hl, if_neg hz, hv]
    rw [he]
    exact ⟨ColData.num (fillCellsQ v cells),
      lookupCol_setCol_self _ _ _ (by rw [hl]; rfl), countP_none_fill v cells⟩
theorem imputeDateStep_achieves (u : MLTable) (nm : Str)
    (h : PresDateAt u nm) : FilledAt (imputeDateStep u nm) nm := by
  obtain ⟨cells, hl, hp⟩ := h
  by_cases hz : countNoneD cells = 0
  · have he : imputeDateStep u nm = u := by
      simp only [imputeDateStep, hl, if_pos hz]
    rw [he]
    exact ⟨ColData.date cells, hl, hz⟩
  · have he : imputeDateStep u nm = setCol u nm (ColData.date (bfill (ffill cells))) := by
      simp only [imputeDateStep, hl, if_neg hz]
    rw [he]
    exact ⟨ColData.date (bfill (ffill cells)),
      lookupCol_setCol_self _ _ _ (by rw [hl]; rfl), bfill_ffill_full cells hp⟩


theorem lookupCol_dropPII (t : MLTable) (nm : Str) (h : nm ∉ piiCols) :
    lookupCol (dropPII t) nm = lookupCol t nm := by
  induction t with
  | nil => rfl
  | cons p rest ih =>
    rcases p with ⟨k, v⟩
    by_cases hk : k ∈ piiCols
    · have hkn : k ≠ nm := fun he => h (he ▸ hk)
      have : dropPII ((k, v) :: rest) = dropPII rest := by
        simp [dropPII, List.filter_cons, hk]
      rw [this, ih, lookupCol_cons, if_neg hkn]
    · have : dropPII ((k, v) :: rest) = (k, v) :: dropPII rest := by
        simp [dropPII, List.filter_cons, hk]
      rw [this, lookupCol_cons, lookupCol_cons]
      by_cases hkn : k = nm
      · rw [if_pos hkn, if_pos hkn]
      · rw [if_neg hkn, if_neg hkn, ih]

theorem lookupCol_of_mem_nodup (t : MLTable) (nm : Str) (c : ColData)
    (hmem : (nm, c) ∈ t) (hnd : (colNames t).Nodup) : lookupCol t nm = some c := by
  induction t with
  | nil => cases hmem
  | cons p rest ih =>
    rcases p with ⟨k, v⟩
    rw [lookupCol_cons]
    rcases List.mem_cons.mp hmem with he | hmem2
    · cases he
      rw [if_pos rfl]
    · by_cases hk : k = nm
      · subst hk
        exfalso
        have hin : k ∈ colNames rest := by
          unfold colNames
          exact List.mem_map.mpr ⟨(k, c), hmem2, rfl⟩
        have := (List.nodup_cons.mp hnd).1
        exact this hin
      · rw [if_neg hk]
        exact ih hmem2 (List.nodup_cons.mp hnd).2

theorem classifyCol_catLow_mem (n : Nat) (b : Buckets) (nm2 : Str) (c2 : ColData)
    (nm : Str) (h : nm ∈ (classifyCol n b nm2 c2).catLow) :
    nm ∈ b.catLow ∨
      (nm = nm2 ∧ isObjCol c2 = true ∧ nm2 ∉ piiCols ∧ colMissing c2 ≠ 0) := by
  unfold classifyCol at h
  split_ifs at h with h1 h2 h3 h4 h5 h6
  · exact Or.inl h
  · exact Or.inl h
  · exact Or.inl h
  · rcases List.mem_append.mp h with h | h
    · exact Or.inl h
    · rcases List.mem_singleton.mp h with rfl
      exact Or.inr ⟨rfl, h4.1, h2, h1⟩
  · exact Or.inl h
  · exact Or.inl h
  · exact Or.inl h

theorem classifyCol_catHigh_mem (n : Nat) (b : Buckets) (nm2 : Str) (c2 : ColData)
    (nm : Str) (h : nm ∈ (classifyCol n b nm2 c2).catHigh) :
    nm ∈ b.catHigh ∨
      (nm = nm2 ∧ isObjCol c2 = true ∧ nm2 ∉ piiCols ∧ colMissing c2 ≠ 0) := by
  unfold classifyCol at h
  split_ifs at h with h1 h2 h3 h4 h5 h6
  · exact Or.inl h
  · exact Or.inl h
  · exact Or.inl h
  · exact Or.inl h
  · rcases List.mem_append.mp h with h | h
    · exact Or.inl h
    · rcases List.mem_singleton.mp h with rfl
      exact Or.inr ⟨rfl, h5, h2, h1⟩
  · exact Or.inl h
  · exact Or.inl h

theorem classifyCol_numeric_mem (n : Nat) (b : Buckets) (nm2 : Str) (c2 : ColData)
    (nm : Str) (h : nm ∈ (classifyCol n b nm2 c2).numeric) :
    nm ∈ b.numeric ∨
      (nm = nm2 ∧ isNumCol c2 = true ∧ nm2 ∉ piiCols ∧ colMissing c2 ≠ 0) := by
  unfold classifyCol at h
  split_ifs at h with h1 h2 h3 h4 h5 h6
  · exact Or.inl h
  · exact Or.inl h
  · exact Or.inl h
  · exact Or.inl h
  · exact Or.inl h
  · rcases List.mem_append.mp h with h | h
    · exact Or.inl h
    · rcases List.mem_singleton.mp h with rfl
      exact Or.inr ⟨rfl, h6, h2, h1⟩
  · exact Or.inl h

theorem classifyCol_dates_mem (n : Nat) (b : Buckets) (nm2 : Str) (c2 : ColData)
    (nm : Str) (h : nm ∈ (classifyCol n b nm2 c2).dates) :
    nm ∈ b.dates ∨ (nm = nm2 ∧ nm2 ∉ piiCols ∧ colMissing c2 ≠ 0) := by
  unfold classifyCol at h
  split_ifs at h with h1 h2 h3 h4 h5 h6
  · exact Or.inl h
  · exact Or.inl h
  · rcases List.mem_append.mp h with h | h
    · exact Or.inl h
    · rcases List.mem_singleton.mp h with rfl
      exact Or.inr ⟨rfl, h2, h1⟩
  · exact Or.inl h
  · exact Or.inl h
  · exact Or.inl h
  · exact Or.inl h

theorem analyze_fold_catLow (n : Nat) (t : List (Str × ColData)) (b0 : Buckets)
    (nm : Str)
    (h : nm ∈ (t.foldl (fun b p => classifyCol n b p.1 p.2) b0).catLow) :
    nm ∈ b0.catLow ∨
      ∃ c, (nm, c) ∈ t ∧ isObjCol c = true ∧ nm ∉ piiCols ∧ colMissing c ≠ 0 := by
  induction t generalizing b0 with
  | nil => exact Or.inl h
  | cons p rest ih =>
    rw [List.foldl_cons] at h
    rcases ih _ h with h2 | ⟨c, hmem, hc⟩
    · rcases classifyCol_catLow_mem n b0 p.1 p.2 nm h2 with h3 | ⟨rfl, hobj, hpii, hm⟩
      · exact Or.inl h3
      · exact Or.inr ⟨p.2, by simp, hobj, hpii, hm⟩
    · exact Or.inr ⟨c, List.mem_cons_of_mem _ hmem, hc⟩

theorem analyze_fold_catHigh (n : Nat) (t : List (Str × ColData)) (b0 : Buckets)
    (nm : Str)
    (h : nm ∈ (t.foldl (fun b p => classifyCol n b p.1 p.2) b0).catHigh) :
    nm ∈ b0.catHigh ∨
      ∃ c, (nm, c) ∈ t ∧ isObjCol c = true ∧ nm ∉ piiCols ∧ colMissing c ≠ 0 := by
  induction t generalizing b0 with
  | nil => exact Or.inl h
  | cons p rest ih =>
    rw [List.foldl_cons] at h
    rcases ih _ h with h2 | ⟨c, hmem, hc⟩
    · rcases classifyCol_catHigh_mem n b0 p.1 p.2 nm h2 with h3 | ⟨rfl, hobj, hpii, hm⟩
      · exact Or.inl h3
      · exact Or.inr ⟨p.2, by simp, hobj, hpii, hm⟩
    · exact Or.inr ⟨c, List.mem_cons_of_mem _ hmem, hc⟩

theorem analyze_fold_numeric (n : Nat) (t : List (Str × ColData)) (b0 : Buckets)
    (nm : Str)
    (h : nm ∈ (t.foldl (fun b p => classifyCol n b p.1 p.2) b0).numeric) :
    nm ∈ b0.numeric ∨
      ∃ c, (nm, c) ∈ t ∧ isNumCol c = true ∧ nm ∉ piiCols ∧ colMissing c ≠ 0 := by
  induction t generalizing b0 with
  | nil => exact Or.inl h
  | cons p rest ih =>
    rw [List.foldl_cons] at h
    rcases ih _ h with h2 | ⟨c, hmem, hc⟩
    · rcases classifyCol_numeric_mem n b0 p.1 p.2 nm h2 with h3 | ⟨rfl, hnum, hpii, hm⟩
      · exact Or.inl h3
      · exact Or.inr ⟨p.2, by simp, hnum, hpii, hm⟩
    · exact Or.inr ⟨c, List.mem_cons_of_mem _ hmem, hc⟩

theorem analyze_fold_dates (n : Nat) (t : List (Str × ColData)) (b0 : Buckets)
    (nm : Str)
    (h : nm ∈ (t.foldl (fun b p => classifyCol n b p.1 p.2) b0).dates) :
    nm ∈ b0.dates ∨ ∃ c, (nm, c) ∈ t ∧ nm ∉ piiCols ∧ colMissing c ≠ 0 := by
  induction t generalizing b0 with
  | nil => exact Or.inl h
  | cons p rest ih =>
    rw [List.foldl_cons] at h
    rcases ih _ h with h2 | ⟨c, hmem, hc⟩
    · rcases classifyCol_dates_mem n b0 p.1 p.2 nm h2 with h3 | ⟨rfl, hpii, hm⟩
      · exact Or.inl h3
      · exact Or.inr ⟨p.2, by simp, hpii, hm⟩
    · exact Or.inr ⟨c, List.mem_cons_of_mem _ hmem, hc⟩

theorem allPres_trans {t u v : MLTable} {nm : Str}
    (h1 : AllPres t u nm) (h2 : AllPres u v nm) : AllPres t v nm :=
  ⟨fun h => h2.1 (h1.1 h), fun h => h2.2.1 (h1.2.1 h),
   fun h => h2.2.2.1 (h1.2.2.1 h), fun h => h2.2.2.2.1 (h1.2.2.2.1 h),
   fun h => h2.2.2.2.2 (h1.2.2.2.2 h)⟩

theorem foldl_allPres (step : MLTable → Str → MLTable)
    (hstep : ∀ u nm2 nm, AllPres u (step u nm2) nm)
    (bs : List Str) (t : MLTable) (nm : Str) : AllPres t (bs.foldl step t) nm := by
  induction bs generalizing t with
  | nil => exact ⟨id, id, id, id, id⟩
  | cons b rest ih =>
    rw [List.foldl_cons]
    exact allPres_trans (hstep t b nm) (ih (step t b))

theorem isObjCol_eq (c : ColData) (h : isObjCol c = true) :
    ∃ cells, c = ColData.str cells := by
  rcases c with cells | cells | cells
  · exact ⟨cells, rfl⟩
  · simp [isObjCol] at h
  · simp [isObjCol] at h

theorem isNumCol_eq (c : ColData) (h : isNumCol c = true) :
    ∃ cells, c = ColData.num cells := by
  rcases c with cells | cells | cells
  · simp [isNumCol] at h
  · exact ⟨cells, rfl⟩
  · simp [isNumCol] at h

/-- **C7 (amended)**: after the missing-value imputation dispatch
(`drop_pii_columns` through `handle_gender_missing`), a column designated
mode-fill (low-missing categorical) or statistic-fill (numeric) contains
no absent cell provided it had at least one present value; a column
designated directional-fill, provided it is a date column with at least
one present value; and a column designated sentinel-fill (high-missing
categorical) is filled unconditionally.  (A column with no present value
keeps its absent cells — the counterexample — because the mode/statistic
is undefined and directional fill has nothing to propagate; the
keep-as-missing bucket is unreachable in pandas, since a column containing
NaN always has object, float or datetime dtype.) -/
theorem C7_fill_dispatch (t : MLTable) (hnd : (colNames t).Nodup) (nm : Str) :
    ((nm ∈ (analyze t).catLow ∨ nm ∈ (analyze t).numeric) →
      (∃ c, lookupCol t nm = some c ∧ colHasPresent c = true) →
      ∃ c2, lookupCol (imputeDispatch t) nm = some c2 ∧ colMissing c2 = 0) ∧
    (nm ∈ (analyze t).dates →
      (∃ cells, lookupCol t nm = some (ColData.date cells) ∧
        cells.any (fun o => o.isSome) = true) →
      ∃ c2, lookupCol (imputeDispatch t) nm = some c2 ∧ colMissing c2 = 0) ∧
    (nm ∈ (analyze t).catHigh →
      ∃ c2, lookupCol (imputeDispatch t) nm = some c2 ∧ colMissing c2 = 0) := by
  have hstep1 : ∀ u nm2 nm3, AllPres u (imputeCatLowStep u nm2) nm3 :=
    fun u nm2 nm3 => allPres_of_strfill (imputeCatLowStep_shape u nm2) nm3
  have hstep2 : ∀ u nm2 nm3, AllPres u (imputeCatHighStep u nm2) nm3 :=
    fun u nm2 nm3 => allPres_of_strfill (imputeCatHighStep_shape u nm2) nm3
  have hstep3 : ∀ u nm2 nm3, AllPres u (imputeNumStep u nm2) nm3 :=
    fun u nm2 nm3 => allPres_of_numfill (imputeNumStep_shape u nm2) nm3
  have hstep4 : ∀ u nm2 nm3, AllPres u (imputeDateStep u nm2) nm3 :=
    fun u nm2 nm3 => allPres_of_datefill (imputeDateStep_shape u nm2) nm3
  refine ⟨?_, ?_, ?_⟩
  · rintro (hlow | hnum) ⟨c0, hc0, hp0⟩
    · rcases analyze_fold_catLow (nrows t) t ⟨[], [], [], [], []⟩ nm hlow with
        h | ⟨c, hmem, hobj, hpii, _⟩
      · cases h
      · have hlook : lookupCol t nm = some c := lookupCol_of_mem_nodup t nm c hmem hnd
        obtain ⟨cells, rfl⟩ := isObjCol_eq c hobj
        rw [hlook] at hc0
        cases hc0
        have hpres : PresStrAt (dropPII t) nm :=
          ⟨cells, by rw [lookupCol_dropPII t nm hpii, hlook], hp0⟩
        have h1 : FilledAt (imputeCatLow (analyze t).catLow (dropPII t)) nm :=
          foldl_mem_achieve imputeCatLowStep
            (fun u nm2 nm3 => (hstep1 u nm2 nm3).2.1)
            (fun u nm2 nm3 => (hstep1 u nm2 nm3).1)
            imputeCatLowStep_achieves _ _ nm hlow hpres
        have h2 := (foldl_allPres imputeCatHighStep hstep2 (analyze t).catHigh _ nm).1 h1
        have h3 := (foldl_allPres imputeNumStep hstep3 (analyze t).numeric _ nm).1 h2
        have h4 := (foldl_allPres imputeDateStep hstep4 (analyze t).dates _ nm).1 h3
        exact (allPres_of_strfill (handleGender_shape _) nm).1 h4
    · rcases analyze_fold_numeric (nrows t) t ⟨[], [], [], [], []⟩ nm hnum with
        h | ⟨c, hmem, hnumc, hpii, _⟩
      · cases h
      · have hlook : lookupCol t nm = some c := lookupCol_of_mem_nodup t nm c hmem hnd
        obtain ⟨cells, rfl⟩ := isNumCol_eq c hnumc
        rw [hlook] at hc0
        cases hc0
        have hpres : PresNumAt (dropPII t) nm :=
          ⟨cells, by rw [lookupCol_dropPII t nm hpii, hlook], hp0⟩
        have h1 := (foldl_allPres imputeCatLowStep hstep1 (analyze t).catLow _ nm).2.2.2.1 hpres
        have h2 := (foldl_allPres imputeCatHighStep hstep2 (analyze t).catHigh _ nm).2.2.2.1 h1
        have h3 : FilledAt (imputeNum (analyze t).numeric
            (imputeCatHigh (analyze t).catHigh
              (imputeCatLow (analyze t).catLow (dropPII t)))) nm :=
          foldl_mem_achieve imputeNumStep
            (fun u nm2 nm3 => (hstep3 u nm2 nm3).2.2.2.1)
            (fun u nm2 nm3 => (hstep3 u nm2 nm3).1)
            imputeNumStep_achieves _ _ nm hnum h2
        have h4 := (foldl_allPres imputeDateStep hstep4 (analyze t).dates _ nm).1 h3
        exact (allPres_of_strfill (handleGender_shape _) nm).1 h4
  · rintro hdat ⟨cells, hc0, hp0⟩
    rcases analyze_fold_dates (nrows t) t ⟨[], [], [], [], []⟩ nm hdat with
      h | ⟨c, hmem, hpii, _⟩
    · cases h
    · have hpres : PresDateAt (dropPII t) nm :=
        ⟨cells, by rw [lookupCol_dropPII t nm hpii, hc0], hp0⟩
      have h1 := (foldl_allPres imputeCatLowStep hstep1 (analyze t).catLow _ nm).2.2.2.2 hpres
      have h2 := (foldl_allPres imputeCatHighStep hstep2 (analyze t).catHigh _ nm).2.2.2.2 h1
      have h3 := (foldl_allPres imputeNumStep hstep3 (analyze t).numeric _ nm).2.2.2.2 h2
      have h4 : FilledAt (imputeDate (analyze t).dates
          (imputeNum (analyze t).numeric (imputeCatHigh (analyze t).catHigh
            (imputeCatLow (analyze t).catLow (dropPII t))))) nm :=
        foldl_mem_achieve imputeDateStep
          (fun u nm2 nm3 => (hstep4 u nm2 nm3).2.2.2.2)
          (fun u nm2 nm3 => (hstep4 u nm2 nm3).1)
          imputeDateStep_achieves _ _ nm hdat h3
      exact (allPres_of_strfill (handleGender_shape _) nm).1 h4
  · intro hhigh
    rcases analyze_fold_catHigh (nrows t) t ⟨[], [], [], [], []⟩ nm hhigh with
      h | ⟨c, hmem, hobj, hpii, _⟩
    · cases h
    · have hlook : lookupCol t nm = some c := lookupCol_of_mem_nodup t nm c hmem hnd
      obtain ⟨cells, rfl⟩ := isObjCol_eq c hobj
      have hstrc : StrColAt (dropPII t) nm :=
        ⟨cells, by rw [lookupCol_dropPII t nm hpii, hlook]⟩
      have h1 := (foldl_allPres imputeCatLowStep hstep1 (analyze t).catLow _ nm).2.2.1 hstrc
      have h2 : FilledAt (imputeCatHigh (analyze t).catHigh
          (imputeCatLow (analyze t).catLow (dropPII t))) nm :=
        foldl_mem_achieve imputeCatHighStep
          (fun u nm2 nm3 => (hstep2 u nm2 nm3).2.2.1)
          (fun u nm2 nm3 => (hstep2 u nm2 nm3).1)
          imputeCatHighStep_achieves _ _ nm hhigh h1
      have h3 := (foldl_allPres imputeNumStep hstep3 (analyze t).numeric _ nm).1 h2
      have h4 := (foldl_allPres imputeDateStep hstep4 (analyze t).dates _ nm).1 h3
      exact (allPres_of_strfill (handleGender_shape _) nm).1 h4

/-- The one-column insurance table of the C7 witness is classified
high-missing categorical (50% missing is at or above the 5% threshold). -/
theorem insuranceHighMissing :
    nmInsurance ∈ (analyze
      [(nmInsurance, ColData.str [some (encode "Aetna"), none])]).catHigh := by
  have hre : analyze [(nmInsurance, ColData.str [some (encode "Aetna"), none])] =
      classifyCol 2 ⟨[], [], [], [], []⟩ nmInsurance
        (ColData.str [some (encode "Aetna"), none]) := rfl
  rw [hre]
  unfold classifyCol
  split_ifs with h1 h2 h3 h4 h5
  · exact absurd h1 (by decide)
  · exact absurd h2 (by decide)
  · exact absurd h3 (by decide)
  · exfalso
    rcases h4 with ⟨-, hlt⟩
    have hm : colMissing (ColData.str [some (encode "Aetna"), none]) = 1 := by decide
    rw [hm] at hlt
    norm_num at hlt
  · simp
  · exact absurd (by decide) h5
  · exact absurd (by decide) h5

/-- Witness for C7 at three concrete one-column tables: a numeric column
with a present value, an all-present-or-partially-absent date column, and
a high-missing categorical column. -/
theorem C7_fill_dispatch_witness :
    (∃ c2, lookupCol (imputeDispatch [(nmAge, ColData.num [some 1, none])]) nmAge
        = some c2 ∧ colMissing c2 = 0) ∧
    (∃ c2, lookupCol (imputeDispatch [(nmDis, ColData.date [some 5, none])]) nmDis
        = some c2 ∧ colMissing c2 = 0) ∧
    (∃ c2, lookupCol (imputeDispatch
        [(nmInsurance, ColData.str [some (encode "Aetna"), none])]) nmInsurance
        = some c2 ∧ colMissing c2 = 0) :=
  ⟨(C7_fill_dispatch [(nmAge, ColData.num [some 1, none])] (by decide) nmAge).1
      (Or.inr (by decide)) ⟨ColData.num [some 1, none], by decide, by decide⟩,
   (C7_fill_dispatch [(nmDis, ColData.date [some 5, none])] (by decide) nmDis).2.1
      (by decide) ⟨[some 5, none], by decide, by decide⟩,
   (C7_fill_dispatch [(nmInsurance, ColData.str [some (encode "Aetna"), none])]
      (by decide) nmInsurance).2.2 insuranceHighMissing⟩

/-!
## Machinery for the amended C2: the second cleaning run
-/

theorem upC_eq_45 (c : Nat) : upC c = 45 ↔ c = 45 := by
  simp only [upC]; split_ifs <;> omega

theorem lowC_eq_45 (c : Nat) : lowC c = 45 ↔ c = 45 := by
  simp only [lowC]; split_ifs <;> omega

theorem capitalize_capitalize (w : Str) : capitalize (capitalize w) = capitalize w := by
  rcases w with _ | ⟨c, rest⟩
  · rfl
  · show upC (upC c) :: (rest.map lowC).map lowC = upC c :: rest.map lowC
    rw [upC_upC, List.map_map]
    congr 1
    apply List.map_congr_left
    intro x _
    exact lowC_lowC x

theorem mem_capitalize {c : Nat} {w : Str} (h : c ∈ capitalize w) :
    ∃ c0 ∈ w, c = upC c0 ∨ c = lowC c0 := by
  rcases w with _ | ⟨a, rest⟩
  · cases h
  · rcases List.mem_cons.mp h with rfl | h2
    · exact ⟨a, List.mem_cons_self _ _, Or.inl rfl⟩
    · obtain ⟨c0, hc0, rfl⟩ := List.mem_map.mp h2
      exact ⟨c0, List.mem_cons_of_mem _ hc0, Or.inr rfl⟩

theorem capitalize_spacefree {w : Str} (h : ∀ c ∈ w, ¬(isSpaceC c = true)) :
    ∀ c ∈ capitalize w, ¬(isSpaceC c = true) := by
  intro c hc
  obtain ⟨c0, hc0, hor⟩ := mem_capitalize hc
  rcases hor with rfl | rfl
  · rw [isSpaceC_upC]; exact h c0 hc0
  · rw [isSpaceC_lowC]; exact h c0 hc0

theorem capitalize_dashfree {w : Str} (h : ¬(45 ∈ w)) : ¬(45 ∈ capitalize w) := by
  intro hc
  obtain ⟨c0, hc0, hor⟩ := mem_capitalize hc
  rcases hor with he | he
  · exact h ((upC_eq_45 c0).mp he.symm ▸ hc0)
  · exact h ((lowC_eq_45 c0).mp he.symm ▸ hc0)

theorem capitalize_ne_nil {w : Str} (h : w ≠ []) : capitalize w ≠ [] := by
  rcases w with _ | ⟨c, rest⟩
  · exact absurd rfl h
  · simp [capitalize]

theorem mem_dash_capitalize (w : Str) : 45 ∈ capitalize w ↔ 45 ∈ w := by
  constructor
  · intro h
    obtain ⟨c0, hc0, hor⟩ := mem_capitalize h
    rcases hor with he | he
    · exact (upC_eq_45 c0).mp he.symm ▸ hc0
    · exact (lowC_eq_45 c0).mp he.symm ▸ hc0
  · intro h
    rcases w with _ | ⟨a, rest⟩
    · cases h
    · rcases List.mem_cons.mp h with rfl | h2
      · exact List.mem_cons_self _ _
      · exact List.mem_cons_of_mem _
          (List.mem_map.mpr ⟨45, h2, rfl⟩)

theorem splitDash_ne_nil (w : Str) : splitDash w ≠ [] := by
  induction w with
  | nil => simp [splitDash]
  | cons c rest ih =>
    rw [splitDash]
    split_ifs
    · simp
    · rcases hs : splitDash rest with _ | ⟨s, ss⟩
      · exact absurd hs ih
      · simp

theorem splitDash_pieces (w : Str) : ∀ p ∈ splitDash w, ¬(45 ∈ p) := by
  induction w with
  | nil =>
    intro p hp
    rcases List.mem_singleton.mp hp with rfl
    simp
  | cons c rest ih =>
    intro p hp
    rw [splitDash] at hp
    split_ifs at hp with hc
    · rcases List.mem_cons.mp hp with rfl | hp2
      · simp
      · exact ih p hp2
    · rcases hs : splitDash rest with _ | ⟨s, ss⟩
      · exact absurd hs (splitDash_ne_nil rest)
      · rw [hs] at hp
        rcases List.mem_cons.mp hp with rfl | hp2
        · intro hmem
          rcases List.mem_cons.mp hmem with he | h2
          · exact hc he.symm
          · exact ih s (hs ▸ List.mem_cons_self _ _) h2
        · exact ih p (hs ▸ List.mem_cons_of_mem _ hp2)

theorem joinDash_splitDash (w : Str) : joinDash (splitDash w) = w := by
  induction w with
  | nil => rfl
  | cons c rest ih =>
    rw [splitDash]
    split_ifs with hc
    · subst hc
      rcases hs : splitDash rest with _ | ⟨s, ss⟩
      · exact absurd hs (splitDash_ne_nil rest)
      · rw [hs] at ih
        show joinDash ([] :: s :: ss) = 45 :: rest
        show [] ++ 45 :: joinDash (s :: ss) = 45 :: rest
        rw [ih]
        rfl
    · rcases hs : splitDash rest with _ | ⟨s, ss⟩
      · exact absurd hs (splitDash_ne_nil rest)
      · rw [hs] at ih
        rcases ss with _ | ⟨s2, ss2⟩
        · show c :: s = c :: rest
          rw [show joinDash [s] = s from rfl] at ih
          rw [ih]
        · show (c :: s) ++ 45 :: joinDash (s2 :: ss2) = c :: rest
          rw [List.cons_append]
          congr 1

theorem splitDash_single {p : Str} (h : ¬(45 ∈ p)) : splitDash p = [p] := by
  induction p with
  | nil => rfl
  | cons c rest ih =>
    rw [splitDash]
    rw [if_neg (fun hc => h (by rw [hc]; exact List.mem_cons_self _ _))]
    rw [ih (fun hm => h (List.mem_cons_of_mem _ hm))]

theorem splitDash_append_word (p tail : Str) (hp : ¬(45 ∈ p)) :
    splitDash (p ++ 45 :: tail) = p :: splitDash tail := by
  induction p with
  | nil =>
    rw [List.nil_append, splitDash, if_pos rfl]
  | cons c cp ih =>
    rw [List.cons_append, splitDash,
      if_neg (fun hc => hp (by rw [hc]; exact List.mem_cons_self _ _))]
    rw [ih (fun hm => hp (List.mem_cons_of_mem _ hm))]

theorem splitDash_joinDash (ps : List Str) (hne : ps ≠ [])
    (h : ∀ p ∈ ps, ¬(45 ∈ p)) : splitDash (joinDash ps) = ps := by
  induction ps with
  | nil => exact absurd rfl hne
  | cons p rest ih =>
    rcases rest with _ | ⟨p2, rest2⟩
    · exact splitDash_single (h p (List.mem_singleton.mpr rfl))
    · show splitDash (p ++ 45 :: joinDash (p2 :: rest2)) = p :: p2 :: rest2
      rw [splitDash_append_word p _ (h p (List.mem_cons_self _ _))]
      rw [ih (by simp) (fun q hq => h q (List.mem_cons_of_mem _ hq))]

theorem joinDash_mem_45 (ps : List Str) (h : 2 ≤ ps.length) : 45 ∈ joinDash ps := by
  rcases ps with _ | ⟨p, _ | ⟨p2, rest⟩⟩
  · simp at h
  · simp at h
  · show 45 ∈ p ++ 45 :: joinDash (p2 :: rest)
    simp

theorem splitWsAcc_nospace (l : Str) (hl : ∀ c ∈ l, ¬(isSpaceC c = true)) :
    ∀ cur, splitWsAcc cur l = if cur ++ l = [] then [] else [cur ++ l] := by
  induction l with
  | nil =>
    intro cur
    rw [splitWsAcc]
    simp
  | cons c rest ih =>
    intro cur
    rw [splitWsAcc, if_neg (hl c (List.mem_cons_self _ _)),
      ih (fun x hx => hl x (List.mem_cons_of_mem _ hx)) (cur ++ [c])]
    have h1 : (cur ++ [c]) ++ rest = cur ++ c :: rest := by simp
    rw [h1]

theorem splitWsAcc_append_word (w : Str) :
    ∀ (cur rest : Str), cur ++ w ≠ [] → (∀ c ∈ w, ¬(isSpaceC c = true)) →
      splitWsAcc cur (w ++ 32 :: rest) = (cur ++ w) :: splitWsAcc [] rest := by
  induction w with
  | nil =>
    intro cur rest hne _
    rw [List.nil_append, splitWsAcc, if_pos (by decide)]
    rw [List.append_nil] at hne ⊢
    rw [if_neg hne]
  | cons c w2 ih =>
    intro cur rest hne hsf
    rw [List.cons_append, splitWsAcc,
      if_neg (hsf c (List.mem_cons_self _ _)),
      ih (cur ++ [c]) rest (by simp) (fun x hx => hsf x (List.mem_cons_of_mem _ hx))]
    have h1 : (cur ++ [c]) ++ w2 = cur ++ c :: w2 := by simp
    rw [h1]

theorem splitWs_joinSp (ws : List Str)
    (h : ∀ w ∈ ws, w ≠ [] ∧ ∀ c ∈ w, ¬(isSpaceC c = true)) :
    splitWs (joinSp ws) = ws := by
  induction ws with
  | nil => rfl
  | cons w rest ih =>
    rcases rest with _ | ⟨w2, rest2⟩
    · show splitWsAcc [] w = [w]
      rw [splitWsAcc_nospace w (h w (List.mem_singleton.mpr rfl)).2 []]
      rw [List.nil_append, if_neg (h w (List.mem_singleton.mpr rfl)).1]
    · show splitWsAcc [] (w ++ 32 :: joinSp (w2 :: rest2)) = w :: w2 :: rest2
      rw [splitWsAcc_append_word w [] _
        (by rw [List.nil_append]; exact (h w (List.mem_cons_self _ _)).1)
        (h w (List.mem_cons_self _ _)).2]
      rw [List.nil_append]
      congr 1
      exact ih (fun q hq => h q (List.mem_cons_of_mem _ hq))

theorem splitWsAcc_pieces (l : Str) :
    ∀ cur, (∀ c ∈ cur, ¬(isSpaceC c = true)) →
      ∀ w ∈ splitWsAcc cur l, w ≠ [] ∧ ∀ c ∈ w, ¬(isSpaceC c = true) := by
  induction l with
  | nil =>
    intro cur hcur w hw
    rw [splitWsAcc] at hw
    split_ifs at hw with hc
    · cases hw
    · rcases List.mem_singleton.mp hw with rfl
      exact ⟨hc, hcur⟩
  | cons c rest ih =>
    intro cur hcur w hw
    rw [splitWsAcc] at hw
    split_ifs at hw with hsp hcur0
    · exact ih [] (by simp) w hw
    · rcases List.mem_cons.mp hw with rfl | hw2
      · exact ⟨hcur0, hcur⟩
      · exact ih [] (by simp) w hw2
    · refine ih (cur ++ [c]) ?_ w hw
      intro x hx
      rcases List.mem_append.mp hx with hx2 | hx2
      · exact hcur x hx2
      · rcases List.mem_singleton.mp hx2 with rfl
        exact fun he => hsp he

theorem splitWs_pieces (s : Str) :
    ∀ w ∈ splitWs s, w ≠ [] ∧ ∀ c ∈ w, ¬(isSpaceC c = true) :=
  splitWsAcc_pieces s [] (by simp)

theorem lowS_append (a b : Str) : lowS (a ++ b) = lowS a ++ lowS b :=
  List.map_append lowC a b

theorem lowS_joinSp (ws : List Str) : lowS (joinSp ws) = joinSp (ws.map lowS) := by
  induction ws with
  | nil => rfl
  | cons w rest ih =>
    rcases rest with _ | ⟨w2, rest2⟩
    · rfl
    · show lowS (w ++ 32 :: joinSp (w2 :: rest2)) =
        lowS w ++ 32 :: joinSp ((w2 :: rest2).map lowS)
      rw [lowS_append, ← ih]
      rfl

theorem lowS_joinDash (ps : List Str) : lowS (joinDash ps) = joinDash (ps.map lowS) := by
  induction ps with
  | nil => rfl
  | cons p rest ih =>
    rcases rest with _ | ⟨p2, rest2⟩
    · rfl
    · show lowS (p ++ 45 :: joinDash (p2 :: rest2)) =
        lowS p ++ 45 :: joinDash ((p2 :: rest2).map lowS)
      rw [lowS_append, ← ih]
      rfl

theorem lowS_capitalize (w : Str) : lowS (capitalize w) = lowS w := by
  rcases w with _ | ⟨c, rest⟩
  · rfl
  · show lowC (upC c) :: (rest.map lowC).map lowC = lowC c :: rest.map lowC
    rw [lowC_upC, List.map_map]
    congr 1
    apply List.map_congr_left
    intro x _
    exact lowC_lowC x

theorem splitDash_two_of_mem {w : Str} (hd : 45 ∈ w) : 2 ≤ (splitDash w).length := by
  rcases hs : splitDash w with _ | ⟨p, _ | ⟨p2, ps⟩⟩
  · exact absurd hs (splitDash_ne_nil w)
  · exfalso
    have hw : w = p := by
      rw [← joinDash_splitDash w, hs]
      rfl
    exact splitDash_pieces w p (hs ▸ List.mem_cons_self _ _) (hw ▸ hd)
  · simp

theorem fixPart_pos {w : Str} (hd : 45 ∈ w) :
    fixPart w = joinDash ((splitDash w).map capitalize) := by
  rw [fixPart, if_pos hd]

theorem fixPart_neg {w : Str} (hd : ¬(45 ∈ w)) : fixPart w = capitalize w := by
  rw [fixPart, if_neg hd]

theorem fixPart_fixPart (w : Str) : fixPart (fixPart w) = fixPart w := by
  by_cases hd : 45 ∈ w
  · have hd2 : 45 ∈ joinDash ((splitDash w).map capitalize) :=
      joinDash_mem_45 _ (by rw [List.length_map]; exact splitDash_two_of_mem hd)
    rw [fixPart_pos hd, fixPart_pos hd2]
    rw [splitDash_joinDash ((splitDash w).map capitalize)
      (by
        intro he
        exact splitDash_ne_nil w (List.map_eq_nil.mp he))
      (by
        intro p hp
        obtain ⟨q, hq, rfl⟩ := List.mem_map.mp hp
        exact capitalize_dashfree (splitDash_pieces w q hq))]
    rw [List.map_map]
    congr 1
    apply List.map_congr_left
    intro q _
    exact capitalize_capitalize q
  · rw [fixPart_neg hd,
      fixPart_neg (fun h2 => hd ((mem_dash_capitalize w).mp h2)),
      capitalize_capitalize]

theorem fixPart_ne_nil {w : Str} (h : w ≠ []) : fixPart w ≠ [] := by
  by_cases hd : 45 ∈ w
  · rw [fixPart_pos hd]
    have h2 := splitDash_two_of_mem hd
    rcases hs : splitDash w with _ | ⟨p, _ | ⟨p2, ps⟩⟩
    · exact absurd hs (splitDash_ne_nil w)
    · rw [hs] at h2; simp at h2
    · simp [joinDash]
  · rw [fixPart_neg hd]
    exact capitalize_ne_nil h

theorem mem_joinDash {c : Nat} {ps : List Str} (h : c ∈ joinDash ps) :
    c = 45 ∨ ∃ p ∈ ps, c ∈ p := by
  induction ps with
  | nil => cases h
  | cons p rest ih =>
    rcases rest with _ | ⟨p2, rest2⟩
    · exact Or.inr ⟨p, List.mem_singleton.mpr rfl, h⟩
    · rcases List.mem_append.mp h with h2 | h2
      · exact Or.inr ⟨p, List.mem_cons_self _ _, h2⟩
      · rcases List.mem_cons.mp h2 with rfl | h3
        · exact Or.inl rfl
        · rcases ih h3 with h4 | ⟨q, hq, hcq⟩
          · exact Or.inl h4
          · exact Or.inr ⟨q, List.mem_cons_of_mem _ hq, hcq⟩

theorem mem_joinDash_of_mem {c : Nat} {ps : List Str} {p : Str}
    (hp : p ∈ ps) (hc : c ∈ p) : c ∈ joinDash ps := by
  induction ps with
  | nil => cases hp
  | cons q rest ih =>
    rcases rest with _ | ⟨q2, rest2⟩
    · rcases List.mem_singleton.mp hp with rfl
      exact hc
    · rcases List.mem_cons.mp hp with rfl | hp2
      · exact List.mem_append.mpr (Or.inl hc)
      · exact List.mem_append.mpr (Or.inr (List.mem_cons_of_mem _ (ih hp2)))

theorem mem_of_mem_splitDash {c : Nat} {w : Str} {p : Str}
    (hp : p ∈ splitDash w) (hc : c ∈ p) : c ∈ w := by
  rw [← joinDash_splitDash w]
  exact mem_joinDash_of_mem hp hc

theorem fixPart_spacefree {w : Str} (h : ∀ c ∈ w, ¬(isSpaceC c = true)) :
    ∀ c ∈ fixPart w, ¬(isSpaceC c = true) := by
  intro c hc
  by_cases hd : 45 ∈ w
  · rw [fixPart_pos hd] at hc
    rcases mem_joinDash hc with rfl | ⟨p, hp, hcp⟩
    · decide
    · obtain ⟨q, hq, rfl⟩ := List.mem_map.mp hp
      refine capitalize_spacefree ?_ c hcp
      intro x hx
      exact h x (mem_of_mem_splitDash hq hx)
  · rw [fixPart_neg hd] at hc
    exact capitalize_spacefree h c hc

theorem lowS_fixPart (w : Str) : lowS (fixPart w) = lowS w := by
  by_cases hd : 45 ∈ w
  · rw [fixPart_pos hd, lowS_joinDash, List.map_map]
    have h1 : (splitDash w).map (lowS ∘ capitalize) = (splitDash w).map lowS := by
      apply List.map_congr_left
      intro q _
      exact lowS_capitalize q
    rw [h1, ← lowS_joinDash, joinDash_splitDash]
  · rw [fixPart_neg hd]
    exact lowS_capitalize w

theorem splitWs_fixBody (x : Str) : splitWs (fixBody x) = (splitWs x).map fixPart := by
  apply splitWs_joinSp
  intro w hw
  obtain ⟨q, hq, rfl⟩ := List.mem_map.mp hw
  obtain ⟨hq1, hq2⟩ := splitWs_pieces x q hq
  exact ⟨fixPart_ne_nil hq1, fixPart_spacefree hq2⟩

theorem normSpace_fixBody (x : Str) : normSpace (fixBody x) = fixBody x := by
  rw [normSpace, splitWs_fixBody]
  rfl

theorem fixBody_fixBody (x : Str) : fixBody (fixBody x) = fixBody x := by
  rw [fixBody, splitWs_fixBody, List.map_map]
  congr 1
  apply List.map_congr_left
  intro q _
  exact fixPart_fixPart q

theorem splitWs_normSpace (s : Str) : splitWs (normSpace s) = splitWs s := by
  rw [normSpace]
  exact splitWs_joinSp _ (splitWs_pieces s)

theorem normSpace_normSpace (s : Str) : normSpace (normSpace s) = normSpace s := by
  rw [normSpace, splitWs_normSpace]
  rfl

theorem lowS_fixBody (x : Str) : lowS (fixBody x) = lowS (normSpace x) := by
  rw [fixBody, normSpace, lowS_joinSp, lowS_joinSp, List.map_map]
  congr 1
  apply List.map_congr_left
  intro q _
  exact lowS_fixPart q

theorem titleS_facts :
    ∀ p ∈ titlesList, titleS p ≠ [] ∧ (∀ c ∈ titleS p, ¬(isSpaceC c = true)) ∧
      lowS (titleS p) = p ∧ (titleS p).length = p.length := by
  intro p hp
  fin_cases hp <;> refine ⟨by decide, ?_, by decide, by decide⟩ <;> decide

theorem find?_titles (p : Str) (hp : p ∈ titlesList) (tail : Str) :
    titlesList.find? (fun q => q.isPrefixOf (p ++ tail)) = some p := by
  fin_cases hp <;>
    simp [titlesList, List.find?, List.isPrefixOf, encode]

theorem joinSp_word_head (w : Str) (l : List Str) :
    ∃ t, joinSp (w :: l) = w ++ t := by
  rcases l with _ | ⟨w2, l2⟩
  · exact ⟨[], by simp [joinSp]⟩
  · exact ⟨32 :: joinSp (w2 :: l2), rfl⟩

theorem dropWhile_space_word {w : Str} (hne : w ≠ [])
    (hsf : ∀ c ∈ w, ¬(isSpaceC c = true)) (t : Str) :
    (w ++ t).dropWhile (fun c => isSpaceC c) = w ++ t := by
  rcases w with _ | ⟨c, w2⟩
  · exact absurd rfl hne
  · rw [List.cons_append, List.dropWhile_cons,
      if_neg (hsf c (List.mem_cons_self _ _))]

theorem fixName_eq_none {x : Str}
    (h : titlesList.find? (fun q => q.isPrefixOf (lowS (normSpace x))) = none) :
    fixName x = fixBody (normSpace x) := by
  unfold fixName
  rw [h]

theorem fixName_eq_some {x p : Str}
    (h : titlesList.find? (fun q => q.isPrefixOf (lowS (normSpace x))) = some p) :
    fixName x = (titleS p ++ [32]) ++
      fixBody (((normSpace x).drop p.length).dropWhile (fun c => isSpaceC c)) := by
  unfold fixName
  rw [h]

theorem fixName_fixName (s : Str) : fixName (fixName s) = fixName s := by
  rcases hf : titlesList.find? (fun q => q.isPrefixOf (lowS (normSpace s))) with _ | p
  · rw [fixName_eq_none hf]
    have h3 : titlesList.find?
        (fun q => q.isPrefixOf (lowS (normSpace (fixBody (normSpace s))))) = none := by
      simp only [normSpace_fixBody, lowS_fixBody, normSpace_normSpace]
      exact hf
    rw [fixName_eq_none h3, normSpace_fixBody, fixBody_fixBody]
  · have hp : p ∈ titlesList := List.mem_of_find?_eq_some hf
    obtain ⟨htne, htsf, htlow, htlen⟩ := titleS_facts p hp
    rw [fixName_eq_some hf]
    set rest0 := ((normSpace s).drop p.length).dropWhile (fun c => isSpaceC c) with hrest0
    rcases hsp : splitWs rest0 with _ | ⟨w, ws⟩
    · have hJ : fixBody rest0 = [] := by
        rw [fixBody, hsp]
        rfl
      rw [hJ, List.append_nil]
      have hsw : splitWs (titleS p ++ [32]) = [titleS p] := by
        show splitWsAcc [] (titleS p ++ 32 :: []) = [titleS p]
        rw [splitWsAcc_append_word (titleS p) [] [] (by simpa using htne) htsf]
        rfl
      have hns : normSpace (titleS p ++ [32]) = titleS p := by
        rw [normSpace, hsw]
        rfl
      have hfind : titlesList.find?
          (fun q => q.isPrefixOf (lowS (normSpace (titleS p ++ [32])))) = some p := by
        simp only [hns, htlow]
        simpa using find?_titles p hp []
      rw [fixName_eq_some hfind, hns]
      have hdrop : (titleS p).drop p.length = [] := by
        rw [← htlen]
        exact List.drop_length _
      rw [hdrop]
      show (titleS p ++ [32]) ++ ([] : Str) = titleS p ++ [32]
      exact List.append_nil _
    · have hw := splitWs_pieces rest0 w (by rw [hsp]; exact List.mem_cons_self _ _)
      have hJsplit : splitWs (fixBody rest0) = fixPart w :: ws.map fixPart := by
        rw [splitWs_fixBody, hsp]
        rfl
      have hy : (titleS p ++ [32]) ++ fixBody rest0 = titleS p ++ 32 :: fixBody rest0 := by
        rw [List.append_assoc]
        rfl
      have hysplit : splitWs (titleS p ++ 32 :: fixBody rest0) =
          titleS p :: splitWs (fixBody rest0) := by
        show splitWsAcc [] (titleS p ++ 32 :: fixBody rest0) = _
        rw [splitWsAcc_append_word (titleS p) [] _ (by simpa using htne) htsf]
        rfl
      have hns : normSpace (titleS p ++ 32 :: fixBody rest0) =
          titleS p ++ 32 :: fixBody rest0 := by
        rw [normSpace, hysplit, hJsplit]
        show titleS p ++ 32 :: joinSp (fixPart w :: ws.map fixPart) = _
        rw [fixBody, hsp]
        rfl
      have hlowy : lowS (titleS p ++ 32 :: fixBody rest0) =
          p ++ 32 :: lowS (fixBody rest0) := by
        rw [lowS_append, htlow]
        rfl
      have hfind2 : titlesList.find?
          (fun q => q.isPrefixOf (lowS (normSpace (titleS p ++ 32 :: fixBody rest0)))) =
          some p := by
        simp only [hns, hlowy]
        exact find?_titles p hp (32 :: lowS (fixBody rest0))
      rw [hy, fixName_eq_some hfind2, hns]
      have hdrop2 : (titleS p ++ 32 :: fixBody rest0).drop p.length = 32 :: fixBody rest0 := by
        rw [← htlen]
        exact List.drop_left _ _
      have hdw : (32 :: fixBody rest0).dropWhile (fun c => isSpaceC c) = fixBody rest0 := by
        obtain ⟨t, ht⟩ := joinSp_word_head (fixPart w) (ws.map fixPart)
        have hJ2 : fixBody rest0 = fixPart w ++ t := by
          rw [fixBody, hsp]
          exact ht
        show (fixBody rest0).dropWhile (fun c => isSpaceC c) = fixBody rest0
        rw [hJ2]
        exact dropWhile_space_word (fixPart_ne_nil hw.1) (fixPart_spacefree hw.2) t
      rw [hdrop2, hdw, fixBody_fixBody]
      exact hy

theorem cleanGenderVal_idem (g : Option Str) :
    cleanGenderVal (cleanGenderVal g) = cleanGenderVal g := by
  rcases g with _ | v
  · rfl
  · by_cases h1 : isLiteralNan v = true
    · have hv : cleanGenderVal (some v) = none := by
        simp [cleanGenderVal, h1]
      rw [hv]
      rfl
    · by_cases h2 : v ∈ validGenders
      · have hv : cleanGenderVal (some v) = some v := by
          simp only [validGenders, List.mem_cons, List.not_mem_nil, or_false] at h2
          rcases h2 with rfl | rfl <;> decide
        rw [hv]
        exact hv
      · have hv : cleanGenderVal (some v) = none := by
          simp [cleanGenderVal, h1, h2]
        rw [hv]
        rfl

theorem cleanBloodVal_idem (b : Option Str) :
    cleanBloodVal (cleanBloodVal b) = cleanBloodVal b := by
  have hu : cleanBloodVal (some (encode "Unknown")) = some (encode "Unknown") := by decide
  rcases b with _ | v
  · exact hu
  · by_cases h : v ∈ validBloodTypes
    · have hv : cleanBloodVal (some v) = some v := by
        simp [cleanBloodVal, h]
      rw [hv]
      exact hv
    · have hv : cleanBloodVal (some v) = some (encode "Unknown") := by
        simp [cleanBloodVal, h]
      rw [hv]
      exact hu

theorem cleanAgeVal_idem (a : Option ℚ) : cleanAgeVal (cleanAgeVal a) = cleanAgeVal a := by
  rcases a with _ | x
  · rfl
  · by_cases h : x < 0 ∨ x > 120
    · simp [cleanAgeVal, h]
    · have hv : cleanAgeVal (some x) = some x := by
        simp [cleanAgeVal, h]
      rw [hv]
      exact hv

theorem cleanRoomVal_idem (a : Option ℚ) : cleanRoomVal (cleanRoomVal a) = cleanRoomVal a := by
  rcases a with _ | x
  · rfl
  · by_cases h : x < 1 ∨ x > 9999
    · simp [cleanRoomVal, h]
    · have hv : cleanRoomVal (some x) = some x := by
        simp [cleanRoomVal, h]
      rw [hv]
      exact hv

theorem cleanBillingVal_idem (b : Option ℚ) :
    cleanBillingVal (cleanBillingVal b) = cleanBillingVal b := by
  rcases b with _ | x
  · rfl
  · have hx : cleanBillingVal (some x) =
        if (if x < 0 then -x else x) > 1000000 then some 1000000
        else if (if x < 0 then -x else x) < 1 then none
        else some (if x < 0 then -x else x) := rfl
    rw [hx]
    by_cases h1 : (if x < 0 then -x else x) > 1000000
    · rw [if_pos h1]
      norm_num [cleanBillingVal]
    · rw [if_neg h1]
      by_cases h2 : (if x < 0 then -x else x) < 1
      · rw [if_pos h2]
        rfl
      · rw [if_neg h2]
        have hge : (1 : ℚ) ≤ (if x < 0 then -x else x) := not_lt.mp h2
        have h0 : ¬ (if x < 0 then -x else x) < 0 := by linarith
        have hy : cleanBillingVal (some (if x < 0 then -x else x)) =
            if (if x < 0 then -x else x) > 1000000 then some 1000000
            else if (if x < 0 then -x else x) < 1 then none
            else some (if x < 0 then -x else x) := by
          show (if (if (if x < 0 then -x else x) < 0 then -(if x < 0 then -x else x)
                else (if x < 0 then -x else x)) > 1000000 then some (1000000 : ℚ)
              else if (if (if x < 0 then -x else x) < 0 then -(if x < 0 then -x else x)
                else (if x < 0 then -x else x)) < 1 then none
              else some (if (if x < 0 then -x else x) < 0 then -(if x < 0 then -x else x)
                else (if x < 0 then -x else x))) = _
          rw [if_neg h0]
        rw [hy, if_neg h1, if_neg h2]

theorem titleAux_titleAux (s : Str) : ∀ b, titleAux b (titleAux b s) = titleAux b s := by
  induction s with
  | nil => intro b; rfl
  | cons c rest ih =>
    intro b
    by_cases ha : isAlphaC c = true
    · cases b
      · simp [titleAux, ha, isAlphaC_upC, upC_upC, ih]
      · simp [titleAux, ha, isAlphaC_lowC, lowC_lowC, ih]
    · simp [titleAux, ha, ih]

theorem titleS_titleS (s : Str) : titleS (titleS s) = titleS s := titleAux_titleAux s false

theorem isSpaceC_titleAux (s : Str) : ∀ b,
    (titleAux b s).map (fun c => isSpaceC c) = s.map (fun c => isSpaceC c) := by
  induction s with
  | nil => intro b; rfl
  | cons c rest ih =>
    intro b
    simp only [titleAux, List.map_cons, ih]
    congr 1
    by_cases ha : isAlphaC c = true
    · cases b
      · simp [ha, isSpaceC_upC]
      · simp [ha, isSpaceC_lowC]
    · simp [ha]

theorem dropWhile_head_not (p : Nat → Bool) (l : Str) :
    ∀ x ∈ (l.dropWhile p).head?, ¬(p x = true) := by
  induction l with
  | nil =>
    intro x hx
    simp [List.dropWhile] at hx
  | cons c rest ih =>
    intro x hx
    by_cases hc : p c = true
    · rw [List.dropWhile_cons, if_pos hc] at hx
      exact ih x hx
    · rw [List.dropWhile_cons, if_neg hc] at hx
      simp only [List.head?_cons, Option.mem_def, Option.some.injEq] at hx
      rw [← hx]
      exact hc

theorem dropWhile_eq_self_of_head (p : Nat → Bool) (l : Str)
    (h : ∀ x ∈ l.head?, ¬(p x = true)) : l.dropWhile p = l := by
  cases l with
  | nil => rfl
  | cons c rest => rw [List.dropWhile_cons, if_neg (h c rfl)]

theorem head_not_of_dropWhile_eq {p : Nat → Bool} {l : Str}
    (h : l.dropWhile p = l) : ∀ x ∈ l.head?, ¬(p x = true) := by
  intro x hx
  cases l with
  | nil => simp at hx
  | cons c rest =>
    simp only [List.head?_cons, Option.mem_def, Option.some.injEq] at hx
    subst hx
    intro hc
    rw [List.dropWhile_cons, if_pos hc] at h
    have h1 := length_dropWhile_le p rest
    have h2 := congrArg List.length h
    simp only [List.length_cons] at h2
    omega

theorem dropWhile_dropWhile (p : Nat → Bool) (l : Str) :
    (l.dropWhile p).dropWhile p = l.dropWhile p :=
  dropWhile_eq_self_of_head _ _ (dropWhile_head_not p l)

theorem dropWhile_length_eq {p : Nat → Bool} {l : Str}
    (h : (l.dropWhile p).length = l.length) : l.dropWhile p = l := by
  induction l with
  | nil => rfl
  | cons c rest ih =>
    by_cases hc : p c = true
    · exfalso
      rw [List.dropWhile_cons, if_pos hc] at h
      have h1 := length_dropWhile_le p rest
      simp only [List.length_cons] at h
      omega
    · rw [List.dropWhile_cons, if_neg hc]

theorem stripS_parts {s : Str} (h : stripS s = s) :
    s.dropWhile (fun c => isSpaceC c) = s ∧
      s.reverse.dropWhile (fun c => isSpaceC c) = s.reverse := by
  have hlen : (stripS s).length = s.length := by rw [h]
  have h3 : (stripS s).length =
      (((s.dropWhile (fun c => isSpaceC c)).reverse).dropWhile (fun c => isSpaceC c)).length := by
    rw [stripS, List.length_reverse]
  have h4 := length_dropWhile_le (fun c => isSpaceC c)
    ((s.dropWhile (fun c => isSpaceC c)).reverse)
  have h5 := length_dropWhile_le (fun c => isSpaceC c) s
  rw [List.length_reverse] at h4
  have h6 : (s.dropWhile (fun c => isSpaceC c)).length = s.length := by omega
  have h1 : s.dropWhile (fun c => isSpaceC c) = s := dropWhile_length_eq h6
  refine ⟨h1, ?_⟩
  have h7 : stripS s = (s.reverse.dropWhile (fun c => isSpaceC c)).reverse := by
    rw [stripS, h1]
  rw [h7] at h
  have := congrArg List.reverse h
  rwa [List.reverse_reverse] at this

theorem stripS_eq_self_of {s : Str}
    (h1 : s.dropWhile (fun c => isSpaceC c) = s)
    (h2 : s.reverse.dropWhile (fun c => isSpaceC c) = s.reverse) :
    stripS s = s := by
  rw [stripS, h1, h2, List.reverse_reverse]

theorem stripS_stripS (s : Str) : stripS (stripS s) = stripS s := by
  apply stripS_eq_self_of
  · rcases hY : (s.dropWhile (fun c => isSpaceC c)).reverse.dropWhile (fun c => isSpaceC c)
      with _ | ⟨c, rest⟩
    · rw [stripS, hY]
      rfl
    · apply dropWhile_eq_self_of_head
      rw [stripS, hY]
      intro x hx
      rw [List.head?_reverse] at hx
      have hgl : (c :: rest).getLast? = ((s.dropWhile (fun c => isSpaceC c)).reverse).getLast? := by
        have hdec := List.takeWhile_append_dropWhile (p := fun c => isSpaceC c)
          (l := (s.dropWhile (fun c => isSpaceC c)).reverse)
        rw [hY] at hdec
        rw [← hdec]
        rw [List.getLast?_append]
        rfl
      rw [hgl, List.getLast?_reverse] at hx
      exact dropWhile_head_not _ s x hx
  · rw [stripS, List.reverse_reverse]
    exact dropWhile_dropWhile _ _

theorem head_sp_transfer {u w : Str}
    (hmap : w.map (fun c => isSpaceC c) = u.map (fun c => isSpaceC c))
    (h : ∀ x ∈ u.head?, ¬(isSpaceC x = true)) :
    ∀ x ∈ w.head?, ¬(isSpaceC x = true) := by
  intro x hx
  cases u with
  | nil =>
    rw [List.map_nil, List.map_eq_nil] at hmap
    subst hmap
    simp at hx
  | cons c rest =>
    cases w with
    | nil => simp at hx
    | cons d wrest =>
      simp only [List.head?_cons, Option.mem_def, Option.some.injEq] at hx
      subst hx
      simp only [List.map_cons, List.cons.injEq] at hmap
      rw [hmap.1]
      exact h c rfl

theorem stripS_titleS {u : Str} (hu : stripS u = u) : stripS (titleS u) = titleS u := by
  obtain ⟨h1, h2⟩ := stripS_parts hu
  apply stripS_eq_self_of
  · apply dropWhile_eq_self_of_head
    exact head_sp_transfer (isSpaceC_titleAux u false) (head_not_of_dropWhile_eq h1)
  · apply dropWhile_eq_self_of_head
    apply head_sp_transfer ?_ (head_not_of_dropWhile_eq h2)
    rw [List.map_reverse, List.map_reverse]
    exact congrArg List.reverse (isSpaceC_titleAux u false)

theorem stripTitleVal_idem (s : Str) : stripTitleVal (stripTitleVal s) = stripTitleVal s := by
  show titleS (stripS (titleS (stripS s))) = titleS (stripS s)
  rw [stripS_titleS (stripS_stripS s), titleS_titleS]

theorem mem_insertQ {x z : ℚ} {l : List ℚ} (h : z ∈ insertQ x l) : z = x ∨ z ∈ l := by
  induction l with
  | nil =>
    rw [insertQ] at h
    rcases List.mem_cons.mp h with rfl | h2
    · exact Or.inl rfl
    · exact Or.inr h2
  | cons y rest ih =>
    rw [insertQ] at h
    by_cases hc : x ≤ y
    · rw [if_pos hc] at h
      rcases List.mem_cons.mp h with rfl | h2
      · exact Or.inl rfl
      · exact Or.inr h2
    · rw [if_neg hc] at h
      rcases List.mem_cons.mp h with rfl | h2
      · exact Or.inr (List.mem_cons_self _ _)
      · rcases ih h2 with h3 | h3
        · exact Or.inl h3
        · exact Or.inr (List.mem_cons_of_mem _ h3)

theorem mem_sortQ {z : ℚ} {l : List ℚ} (h : z ∈ sortQ l) : z ∈ l := by
  induction l with
  | nil => simp [sortQ] at h
  | cons x rest ih =>
    rw [sortQ] at h
    rcases mem_insertQ h with rfl | h2
    · exact List.mem_cons_self _ _
    · exact List.mem_cons_of_mem _ (ih h2)

theorem medianQ_bounds {l : List ℚ} {lo hi m : ℚ}
    (hb : ∀ x ∈ l, lo ≤ x ∧ x ≤ hi) (h : medianQ l = some m) : lo ≤ m ∧ m ≤ hi := by
  rcases hl : l with _ | ⟨a0, rest⟩
  · rw [hl] at h
    simp [medianQ] at h
  · rw [hl] at h hb
    have h : (if (sortQ (a0 :: rest)).length % 2 = 1
          then (sortQ (a0 :: rest)).get? ((sortQ (a0 :: rest)).length / 2)
          else match (sortQ (a0 :: rest)).get? ((sortQ (a0 :: rest)).length / 2 - 1),
              (sortQ (a0 :: rest)).get? ((sortQ (a0 :: rest)).length / 2) with
            | some a, some b => some ((a + b) / 2)
            | _, _ => none) = some m := h
    by_cases hodd : (sortQ (a0 :: rest)).length % 2 = 1
    · rw [if_pos hodd] at h
      have hm : m ∈ sortQ (a0 :: rest) := List.get?_mem h
      exact hb m (mem_sortQ hm)
    · rw [if_neg hodd] at h
      rcases hX : (sortQ (a0 :: rest)).get? ((sortQ (a0 :: rest)).length / 2 - 1) with _ | a
      · rw [hX] at h
        simp at h
      · rcases hY : (sortQ (a0 :: rest)).get? ((sortQ (a0 :: rest)).length / 2) with _ | b
        · rw [hX, hY] at h
          simp at h
        · rw [hX, hY] at h
          simp only [Option.some.injEq] at h
          have ha := hb a (mem_sortQ (List.get?_mem hX))
          have hbb := hb b (mem_sortQ (List.get?_mem hY))
          constructor
          · rw [← h]
            linarith [ha.1, hbb.1]
          · rw [← h]
            linarith [ha.2, hbb.2]

theorem age_bounds_of_fix {a : ℚ} (h : cleanAgeVal (some a) = some a) : 0 ≤ a ∧ a ≤ 120 := by
  by_cases hc : a < 0 ∨ a > 120
  · rw [cleanAgeVal, if_pos hc] at h
    exact absurd h (by simp)
  · push_neg at hc
    exact hc

/-- The state of a row after one full run of the cleaning pipeline, for the
columns whose rules are idempotent: every per-column rule except the
hospital-name one leaves such a row unchanged. -/
def CleanRow (r : Row) : Prop :=
  r.name.map fixName = r.name ∧
  cleanGenderVal r.gender = r.gender ∧
  cleanBloodVal r.bloodType = r.bloodType ∧
  (∀ a d, r.dateOfAdmission = some a → r.dischargeDate = some d → ¬ d < a) ∧
  cleanAgeVal r.age = r.age ∧
  cleanBillingVal r.billingAmount = r.billingAmount ∧
  cleanRoomVal r.roomNumber = r.roomNumber ∧
  r.insuranceProvider.map stripTitleVal = r.insuranceProvider ∧
  r.medication.map stripTitleVal = r.medication

theorem map_id_of_mem {α : Type} {f : α → α} {l : List α} (h : ∀ x ∈ l, f x = x) :
    l.map f = l := by
  calc l.map f = l.map id := List.map_congr_left h
    _ = l := List.map_id l

theorem optName_idem (x : Option Str) : (x.map fixName).map fixName = x.map fixName := by
  rcases x with _ | v
  · rfl
  · show some (fixName (fixName v)) = some (fixName v)
    rw [fixName_fixName]

theorem optStrip_idem (x : Option Str) :
    (x.map stripTitleVal).map stripTitleVal = x.map stripTitleVal := by
  rcases x with _ | v
  · rfl
  · show some (stripTitleVal (stripTitleVal v)) = some (stripTitleVal v)
    rw [stripTitleVal_idem]

theorem cleanNamesRow_eq_self {r : Row} (h : r.name.map fixName = r.name) :
    ({ r with name := r.name.map fixName } : Row) = r := by
  rw [h]

theorem cleanGenderRow_eq_self {r : Row} (h : cleanGenderVal r.gender = r.gender) :
    ({ r with gender := cleanGenderVal r.gender } : Row) = r := by
  rw [h]

theorem cleanBloodRow_eq_self {r : Row} (h : cleanBloodVal r.bloodType = r.bloodType) :
    ({ r with bloodType := cleanBloodVal r.bloodType } : Row) = r := by
  rw [h]

theorem cleanDatesRow_eq_self {r : Row}
    (h : ∀ a d, r.dateOfAdmission = some a → r.dischargeDate = some d → ¬ d < a) :
    cleanDatesRow r = r := by
  unfold cleanDatesRow
  split
  · rename_i a d hA hD
    rw [if_neg (h a d hA hD)]
  · rfl

theorem cleanNumericalRow_eq_self {r : Row} (h1 : cleanAgeVal r.age = r.age)
    (h2 : cleanBillingVal r.billingAmount = r.billingAmount)
    (h3 : cleanRoomVal r.roomNumber = r.roomNumber) : cleanNumericalRow r = r := by
  unfold cleanNumericalRow
  rw [h1, h2, h3]

theorem cleanCategoricalRow_eq_self {r : Row}
    (h1 : r.insuranceProvider.map stripTitleVal = r.insuranceProvider)
    (h2 : r.medication.map stripTitleVal = r.medication) : cleanCategoricalRow r = r := by
  unfold cleanCategoricalRow
  rw [h1, h2]

theorem cleanDatesRow_cases (r : Row) :
    (cleanDatesRow r = r ∧
      (∀ a d, r.dateOfAdmission = some a → r.dischargeDate = some d → ¬ d < a)) ∨
    cleanDatesRow r = { r with dischargeDate := none } := by
  unfold cleanDatesRow
  split
  · rename_i a d hA hD
    by_cases hlt : d < a
    · right
      rw [if_pos hlt]
    · left
      refine ⟨by rw [if_neg hlt], ?_⟩
      intro a1 d1 hA1 hD1
      rw [hA] at hA1
      rw [hD] at hD1
      simp only [Option.some.injEq] at hA1 hD1
      rw [← hA1, ← hD1]
      exact hlt
  · rename_i hnm
    left
    refine ⟨rfl, ?_⟩
    intro a d hA hD
    exact (hnm a d hA hD).elim

theorem cleanAgeVal_fill {x : Option ℚ} {m : ℚ} (hx : cleanAgeVal x = x)
    (hm : 0 ≤ m ∧ m ≤ 120) : cleanAgeVal (some (x.getD m)) = some (x.getD m) := by
  rcases x with _ | a
  · show cleanAgeVal (some m) = some m
    have hr : ¬(m < 0 ∨ m > 120) := by
      push_neg
      exact hm
    simp [cleanAgeVal, hr]
  · show cleanAgeVal (some a) = some a
    exact hx

theorem cleanRow_comp (r0 : Row) :
    CleanRow (cleanCategoricalRow (cleanNumericalRow
      { cleanDatesRow { r0 with
            name := r0.name.map fixName,
            gender := cleanGenderVal r0.gender,
            bloodType := cleanBloodVal r0.bloodType } with
        hospital := (cleanDatesRow { r0 with
            name := r0.name.map fixName,
            gender := cleanGenderVal r0.gender,
            bloodType := cleanBloodVal r0.bloodType }).hospital.map cleanHospitalVal })) := by
  set rb : Row := { r0 with
      name := r0.name.map fixName,
      gender := cleanGenderVal r0.gender,
      bloodType := cleanBloodVal r0.bloodType } with hrb
  rcases cleanDatesRow_cases rb with ⟨he, hfact⟩ | he <;> rw [he]
  · exact ⟨optName_idem r0.name, cleanGenderVal_idem r0.gender, cleanBloodVal_idem r0.bloodType,
      fun a d hA hD => hfact a d hA hD,
      cleanAgeVal_idem r0.age, cleanBillingVal_idem r0.billingAmount,
      cleanRoomVal_idem r0.roomNumber,
      optStrip_idem r0.insuranceProvider, optStrip_idem r0.medication⟩
  · refine ⟨optName_idem r0.name, cleanGenderVal_idem r0.gender, cleanBloodVal_idem r0.bloodType,
      ?_, cleanAgeVal_idem r0.age, cleanBillingVal_idem r0.billingAmount,
      cleanRoomVal_idem r0.roomNumber,
      optStrip_idem r0.insuranceProvider, optStrip_idem r0.medication⟩
    intro a d hA hD
    have hD2 : (none : Option Int) = some d := hD
    cases hD2

theorem cleanRow_of_mem_stageU {l : List Row} {r : Row}
    (h : r ∈ cleanCategorical (cleanNumerical (cleanHospital (cleanDates
      (cleanBlood (cleanGender (cleanNames l))))))) : CleanRow r := by
  rw [cleanCategorical] at h
  obtain ⟨r5, h5, rfl⟩ := List.mem_map.mp h
  rw [cleanNumerical] at h5
  obtain ⟨r4, h4, rfl⟩ := List.mem_map.mp h5
  rw [cleanHospital] at h4
  obtain ⟨r3, h3, rfl⟩ := List.mem_map.mp h4
  rw [cleanDates] at h3
  obtain ⟨r2, h2, rfl⟩ := List.mem_map.mp h3
  rw [cleanBlood] at h2
  obtain ⟨r1, h1, rfl⟩ := List.mem_map.mp h2
  rw [cleanGender] at h1
  obtain ⟨rg, hg, rfl⟩ := List.mem_map.mp h1
  rw [cleanNames] at hg
  obtain ⟨r0, h0, rfl⟩ := List.mem_map.mp hg
  exact cleanRow_comp r0

theorem cleanNames_id {l : List Row} (h : ∀ r ∈ l, r.name.map fixName = r.name) :
    cleanNames l = l := by
  unfold cleanNames
  apply map_id_of_mem
  intro r hr
  exact cleanNamesRow_eq_self (h r hr)

theorem cleanGender_id {l : List Row} (h : ∀ r ∈ l, cleanGenderVal r.gender = r.gender) :
    cleanGender l = l := by
  unfold cleanGender
  apply map_id_of_mem
  intro r hr
  exact cleanGenderRow_eq_self (h r hr)

theorem cleanBlood_id {l : List Row} (h : ∀ r ∈ l, cleanBloodVal r.bloodType = r.bloodType) :
    cleanBlood l = l := by
  unfold cleanBlood
  apply map_id_of_mem
  intro r hr
  exact cleanBloodRow_eq_self (h r hr)

theorem cleanDates_id {l : List Row} (h : ∀ r ∈ l, cleanDatesRow r = r) :
    cleanDates l = l := map_id_of_mem h

theorem cleanNumerical_id {l : List Row} (h : ∀ r ∈ l, cleanNumericalRow r = r) :
    cleanNumerical l = l := map_id_of_mem h

theorem cleanCategorical_id {l : List Row} (h : ∀ r ∈ l, cleanCategoricalRow r = r) :
    cleanCategorical l = l := map_id_of_mem h

theorem cleanRow_hospital {r : Row} (h : CleanRow r) :
    CleanRow { r with hospital := r.hospital.map cleanHospitalVal } := h

theorem cleanRow_fill {r : Row} {m : ℚ} (h : CleanRow r) (hm : 0 ≤ m ∧ m ≤ 120) :
    CleanRow { r with age := some (r.age.getD m) } := by
  obtain ⟨h1, h2, h3, h4, h5, h6, h7, h8, h9⟩ := h
  exact ⟨h1, h2, h3, h4, cleanAgeVal_fill h5 hm, h6, h7, h8, h9⟩

theorem handleMissing_cases (l : List Row) :
    handleMissing l = l ∨ ∃ m, medianQ (presentAges l) = some m ∧
      handleMissing l = l.map fun r => { r with age := some (r.age.getD m) } := by
  unfold handleMissing
  split_ifs with hc
  · rcases hm : medianQ (presentAges l) with _ | m
    · left
      rfl
    · right
      exact ⟨m, rfl, rfl⟩
  · left
    rfl

theorem cleanRow_handleMissing {l : List Row} (hl : ∀ r ∈ l, CleanRow r) :
    ∀ r ∈ handleMissing l, CleanRow r := by
  rcases handleMissing_cases l with he | ⟨m, hm, he⟩
  · rw [he]
    exact hl
  · rw [he]
    intro r hr
    obtain ⟨r0, h0, rfl⟩ := List.mem_map.mp hr
    have hb : 0 ≤ m ∧ m ≤ 120 := by
      refine medianQ_bounds ?_ hm
      intro x hx
      obtain ⟨r1, h1, hA1⟩ := List.mem_filterMap.mp hx
      have h5 := (hl r1 h1).2.2.2.2.1
      rw [hA1] at h5
      exact age_bounds_of_fix h5
    exact cleanRow_fill (hl r0 h0) hb

theorem handleMissing_of_all_some {l : List Row} (h : ∀ r ∈ l, r.age ≠ none) :
    handleMissing l = l := by
  unfold handleMissing
  rw [if_neg ?_]
  intro hc
  obtain ⟨r, hr, hd⟩ := List.any_eq_true.mp hc
  exact h r hr (by simpa using hd)

theorem handleMissing_of_all_none {l : List Row} (h : ∀ r ∈ l, r.age = none) :
    handleMissing l = l := by
  have hp : presentAges l = [] := by
    rcases hq : presentAges l with _ | ⟨x, rest⟩
    · rfl
    · have hx : x ∈ presentAges l := by rw [hq]; exact List.mem_cons_self _ _
      obtain ⟨r1, h1, hA1⟩ := List.mem_filterMap.mp hx
      rw [h r1 h1] at hA1
      cases hA1
  unfold handleMissing
  split_ifs with hc
  · rw [hp]
    rfl
  · rfl

theorem ageHomog_handleMissing (l : List Row) :
    (∀ r ∈ handleMissing l, r.age ≠ none) ∨ (∀ r ∈ handleMissing l, r.age = none) := by
  by_cases hall : ∀ r ∈ l, r.age = none
  · right
    rw [handleMissing_of_all_none hall]
    exact hall
  · left
    by_cases hnone : ∃ r ∈ l, r.age = none
    · obtain ⟨rn, hrn, hAn⟩ := hnone
      have hcond : l.any (fun r => decide (r.age = none)) = true :=
        List.any_eq_true.mpr ⟨rn, hrn, by simp [hAn]⟩
      push_neg at hall
      obtain ⟨r1, hr1, hA1⟩ := hall
      rcases hA1' : r1.age with _ | a1
      · exact absurd hA1' hA1
      · have hmem : a1 ∈ presentAges l := List.mem_filterMap.mpr ⟨r1, hr1, hA1'⟩
        have hne : presentAges l ≠ [] := by
          intro h0
          rw [h0] at hmem
          cases hmem
        have hsome := medianQ_isSome (presentAges l) hne
        rcases hm : medianQ (presentAges l) with _ | m
        · rw [hm] at hsome
          cases hsome
        · have he : handleMissing l = l.map fun r => { r with age := some (r.age.getD m) } := by
            unfold handleMissing
            rw [if_pos hcond, hm]
          rw [he]
          intro r hr
          obtain ⟨r0, h0, rfl⟩ := List.mem_map.mp hr
          simp
    · have hcond : ¬ l.any (fun r => decide (r.age = none)) = true := by
        intro hc
        obtain ⟨r, hr, hd⟩ := List.any_eq_true.mp hc
        exact hnone ⟨r, hr, by simpa using hd⟩
      have he : handleMissing l = l := by
        unfold handleMissing
        rw [if_neg hcond]
      rw [he]
      intro r hr hA
      exact hnone ⟨r, hr, hA⟩

theorem mem_dropDupAcc {l : List Row} {r : Row} :
    ∀ seen, r ∈ dropDupAcc seen l → r ∈ l := by
  induction l with
  | nil =>
    intro seen h
    exact absurd h (by simp [dropDupAcc])
  | cons a rest ih =>
    intro seen h
    rw [dropDupAcc] at h
    by_cases hs : a ∈ seen
    · rw [if_pos hs] at h
      exact List.mem_cons_of_mem _ (ih seen h)
    · rw [if_neg hs] at h
      rcases List.mem_cons.mp h with rfl | h2
      · exact List.mem_cons_self _ _
      · exact List.mem_cons_of_mem _ (ih _ h2)

theorem mem_dropDuplicates {l : List Row} {r : Row} (h : r ∈ dropDuplicates l) : r ∈ l :=
  mem_dropDupAcc [] h

/-- C2: the full cleaning pipeline is not idempotent as claimed; the amended
relationship is exact: a second run of the pipeline on its own output equals
the hospital-name rule applied to the duplicate removal of that output.  Every
other rule is a per-row no-op on already-cleaned data (their predicates find
no further violations), the second duplicate removal can still delete rows
that the first run's value coercions made identical, and the hospital-name
rule's comma-stripping can trim already-cleaned values further. -/
theorem C2_second_run (t : List Row) :
    cleanPipeline (cleanPipeline t) =
      cleanHospital (dropDuplicates (cleanPipeline t)) := by
  have hclean : ∀ r ∈ cleanPipeline t, CleanRow r :=
    cleanRow_handleMissing (fun r hr => cleanRow_of_mem_stageU hr)
  have hage : (∀ r ∈ cleanPipeline t, r.age ≠ none) ∨
      (∀ r ∈ cleanPipeline t, r.age = none) :=
    ageHomog_handleMissing (cleanCategorical (cleanNumerical (cleanHospital
      (cleanDates (cleanBlood (cleanGender (cleanNames (dropDuplicates t))))))))
  set u := cleanPipeline t with hu
  have hv : ∀ r ∈ dropDuplicates u, CleanRow r :=
    fun r hr => hclean r (mem_dropDuplicates hr)
  show handleMissing (cleanCategorical (cleanNumerical (cleanHospital (cleanDates
    (cleanBlood (cleanGender (cleanNames (dropDuplicates u)))))))) =
    cleanHospital (dropDuplicates u)
  rw [cleanNames_id (fun r hr => (hv r hr).1)]
  rw [cleanGender_id (fun r hr => (hv r hr).2.1)]
  rw [cleanBlood_id (fun r hr => (hv r hr).2.2.1)]
  rw [cleanDates_id (fun r hr => cleanDatesRow_eq_self ((hv r hr).2.2.2.1))]
  have hw : ∀ r ∈ cleanHospital (dropDuplicates u), CleanRow r := by
    intro r hr
    rw [cleanHospital] at hr
    obtain ⟨r0, h0, rfl⟩ := List.mem_map.mp hr
    exact cleanRow_hospital (hv r0 h0)
  rw [cleanNumerical_id (fun r hr => cleanNumericalRow_eq_self
    ((hw r hr).2.2.2.2.1) ((hw r hr).2.2.2.2.2.1) ((hw r hr).2.2.2.2.2.2.1))]
  rw [cleanCategorical_id (fun r hr => cleanCategoricalRow_eq_self
    ((hw r hr).2.2.2.2.2.2.2.1) ((hw r hr).2.2.2.2.2.2.2.2))]
  rcases hage with hall | hnone
  · apply handleMissing_of_all_some
    intro r hr
    rw [cleanHospital] at hr
    obtain ⟨r0, h0, rfl⟩ := List.mem_map.mp hr
    exact hall r0 (mem_dropDuplicates h0)
  · apply handleMissing_of_all_none
    intro r hr
    rw [cleanHospital] at hr
    obtain ⟨r0, h0, rfl⟩ := List.mem_map.mp hr
    exact hnone r0 (mem_dropDuplicates h0)

end Hosp
